import Mathlib

/-!
# The 32-bit key comparator of `src/ordered-binary.cpp`

A shallow embedding of `compareFast` and the properties of its ordering.

* Memory. A pointer is modelled by the list of bytes that can be read from it
  onwards (`MDB_val.mv_data`); `dataA++` on a `uint32_t*` drops four bytes of
  that list. A 4-byte load that does not fit in the list is an out-of-bounds
  read and makes the whole call return `none`.
* Integers. Bytes are `Fin 256`, 32-bit words are natural numbers below 2^32,
  `size_t` arithmetic wraps at 2^64 (`sizeSub`) and the returned `int` keeps
  the low 32 bits as two's complement (`toInt`); with a 32-bit `size_t` the
  returned `int` is the same.
* Host. `load32` and `ntohl` take the byte order of the host; the properties
  of the ordering are proved for the little-endian host.
* Run. `compareFast.trace` is the same body recording the loads of `b` and
  the word comparisons; its result is the result of `compareFast`
  (`trace_result`).
* Roles. `query` builds the descriptor of a query key with exactly the padding
  of the contract, `queryWith` one with any number of zero bytes, `stored` the
  descriptor of a stored key followed in memory by bytes that do not belong
  to it.
-/

namespace OrderedBinary

/-! ## Data model -/

/-- A byte of a key, an unsigned 8-bit value. -/
abbrev Byte := Fin 256

/-- The descriptor `MDB_val` of `lmdb.h` (pointer + length): `mv_size` is the
declared length of the key (a `size_t`), `mv_data` is the memory readable from
the pointer onwards, which may be longer than the declared length. -/
structure MDB_val where
  mv_size : Nat
  mv_data : List Byte

/-- Native byte order of the host that runs the comparator. -/
inductive Endian where
  | little
  | big
  deriving DecidableEq

/-- The load `*p` of a `uint32_t*` pointing at the start of the view `p`: the
value the host forms from the next four bytes, `none` when fewer than four
bytes are readable. -/
def load32 (host : Endian) : List Byte → Option Nat
  | b0 :: b1 :: b2 :: b3 :: _ =>
    match host with
    | Endian.little => some (b0.val + 256 * b1.val + 65536 * b2.val + 16777216 * b3.val)
    | Endian.big => some (16777216 * b0.val + 65536 * b1.val + 256 * b2.val + b3.val)
  | _ => none

/-- Reversal of the four bytes of a 32-bit word (`_byteswap_ulong`). -/
def byteswap32 (w : Nat) : Nat :=
  (w % 256) * 16777216 + (w / 256 % 256) * 65536 + (w / 65536 % 256) * 256 + (w / 16777216 % 256)

/-- Network-to-host conversion `ntohl` of a 32-bit word: a byte swap on a
little-endian host, the identity on a big-endian one. -/
def ntohl (host : Endian) (w : Nat) : Nat :=
  match host with
  | Endian.little => byteswap32 w
  | Endian.big => w

/-- The constant the tail step ands into the native word of `b`:
`remaining == 2 ? 0x0000ffff : remaining == 1 ? 0x000000ff : 0x00ffffff`. -/
def tailMask (remaining : Nat) : Nat :=
  if remaining = 2 then 0x0000ffff else if remaining = 1 then 0x000000ff else 0x00ffffff

/-- Subtraction of two `size_t` values (64 bits, wrapping). -/
def sizeSub (x y : Nat) : Nat :=
  (x % 2 ^ 64 + (2 ^ 64 - y % 2 ^ 64)) % 2 ^ 64

/-- Conversion of an unsigned value to the 32-bit `int` that `compareFast`
returns: the low 32 bits, read as two's complement. -/
def toInt (n : Nat) : Int :=
  if n % 2 ^ 32 < 2 ^ 31 then ((n % 2 ^ 32 : Nat) : Int) else ((n % 2 ^ 32 : Nat) : Int) - 2 ^ 32

/-- The expression `ntohl(*dataA)` (and `ntohl(*dataB)` inside the loop). -/
def wordAt (host : Endian) (p : List Byte) : Option Nat :=
  (load32 host p).map (ntohl host)

/-- The expression `ntohl(*dataB & mask)` of the tail step. -/
def tailWordB (host : Endian) (p : List Byte) (remaining : Nat) : Option Nat :=
  (load32 host p).map (fun w => ntohl host (w &&& tailMask remaining))

/-- The body of `compareFast` from the `while` loop on, run on the current
pointers `dataA`, `dataB` (as views of the readable memory) and `remaining`.
The first equation is one turn of `while (remaining >= 4)`, the second is
the code after the loop. -/
def compareFast.loop (host : Endian) (a b : MDB_val) : List Byte → List Byte → Nat → Option Int
  | dataA, dataB, remaining + 4 =>
    match wordAt host dataA, wordAt host dataB with
    | some aVal, some bVal =>
      if aVal > bVal then some 1
      else if aVal < bVal then some (-1)
      else compareFast.loop host a b (dataA.drop 4) (dataB.drop 4) remaining
    | _, _ => none
  | dataA, dataB, remaining =>
    if remaining ≠ 0 then
      match wordAt host dataA, tailWordB host dataB remaining with
      | some aVal, some bVal =>
        if aVal > bVal then some 1
        else if aVal < bVal then some (-1)
        else some (toInt (sizeSub a.mv_size b.mv_size))
      | _, _ => none
    else some (toInt (sizeSub a.mv_size b.mv_size))

/-- The comparator `compareFast(a, b)`; `none` stands for a load outside the
readable memory of `a` or of `b`. -/
def compareFast (host : Endian) (a b : MDB_val) : Option Int :=
  compareFast.loop host a b a.mv_data b.mv_data b.mv_size

/-! ## The recorded run -/

/-- What a call of `compareFast` does besides returning: the byte offsets in
the memory of `b` of the 4-byte loads `*dataB`, in order, and the number of
word comparisons made inside the loop and in the tail step. -/
structure Trace where
  result : Option Int
  loadsB : List Nat
  loopCompares : Nat
  tailCompares : Nat

/-- The byte indices of the memory of `b` that the loads of a trace touch. -/
def Trace.bytesB (t : Trace) : List Nat :=
  t.loadsB.flatMap (fun off => [off, off + 1, off + 2, off + 3])

/-- The body of `compareFast` as in `compareFast.loop`, recording what it
does: `off` is the distance in bytes of `dataB` from `b->mv_data`. `*dataA` is
loaded before `*dataB`, and a word comparison is counted once both words are
loaded. -/
def compareFast.traceLoop (host : Endian) (a b : MDB_val) :
    List Byte → List Byte → Nat → Nat → Trace
  | dataA, dataB, off, remaining + 4 =>
    match wordAt host dataA with
    | none => { result := none, loadsB := [], loopCompares := 0, tailCompares := 0 }
    | some aVal =>
      match wordAt host dataB with
      | none => { result := none, loadsB := [off], loopCompares := 0, tailCompares := 0 }
      | some bVal =>
        if aVal > bVal then
          { result := some 1, loadsB := [off], loopCompares := 1, tailCompares := 0 }
        else if aVal < bVal then
          { result := some (-1), loadsB := [off], loopCompares := 1, tailCompares := 0 }
        else
          let t := compareFast.traceLoop host a b (dataA.drop 4) (dataB.drop 4) (off + 4) remaining
          { result := t.result, loadsB := off :: t.loadsB, loopCompares := t.loopCompares + 1,
            tailCompares := t.tailCompares }
  | dataA, dataB, off, remaining =>
    if remaining ≠ 0 then
      match wordAt host dataA with
      | none => { result := none, loadsB := [], loopCompares := 0, tailCompares := 0 }
      | some aVal =>
        match tailWordB host dataB remaining with
        | none => { result := none, loadsB := [off], loopCompares := 0, tailCompares := 0 }
        | some bVal =>
          { result :=
              if aVal > bVal then some 1
              else if aVal < bVal then some (-1)
              else some (toInt (sizeSub a.mv_size b.mv_size)),
            loadsB := [off], loopCompares := 0, tailCompares := 1 }
    else
      { result := some (toInt (sizeSub a.mv_size b.mv_size)), loadsB := [], loopCompares := 0,
        tailCompares := 0 }

/-- The trace of the call `compareFast(a, b)`. -/
def compareFast.trace (host : Endian) (a b : MDB_val) : Trace :=
  compareFast.traceLoop host a b a.mv_data b.mv_data 0 b.mv_size

/-! ## Keys in their two roles -/

/-- Number of zero bytes that bring a key of length `n` to the next multiple
of 4. -/
def padLen (n : Nat) : Nat := (4 - n % 4) % 4

/-- The length `n` rounded up to a multiple of 4. -/
def roundUp4 (n : Nat) : Nat := n + padLen n

/-- A query key whose buffer holds the key followed by `k` zero bytes and
nothing else. -/
def queryWith (k : Nat) (key : List Byte) : MDB_val :=
  { mv_size := key.length, mv_data := key ++ List.replicate k 0 }

/-- A query key supplied as the padding contract asks: zero bytes up to the
next multiple of 4 of its length, and nothing readable after them. -/
def query (key : List Byte) : MDB_val :=
  queryWith (padLen key.length) key

/-- A stored key: the key's bytes followed in memory by the bytes `junk` that
are not part of it. -/
def stored (key junk : List Byte) : MDB_val :=
  { mv_size := key.length, mv_data := key ++ junk }

/-- The byte-by-byte reference: unsigned lexicographic comparison, the shorter
key first when one key is the beginning of the other. The result is the sign
(-1, 0 or 1). -/
def refCompare : List Byte → List Byte → Int
  | [], [] => 0
  | [], _ :: _ => -1
  | _ :: _, [] => 1
  | x :: xs, y :: ys =>
    if x.val < y.val then -1
    else if y.val < x.val then 1
    else refCompare xs ys

/-! ## Auxiliary definitions for the proofs -/

/-- The unsigned big-endian 32-bit integer formed from four bytes. -/
def be32 (x0 x1 x2 x3 : Byte) : Nat :=
  16777216 * x0.val + 65536 * x1.val + 256 * x2.val + x3.val

/-- Byte-wise unsigned comparison of `zs` against `ys` over the length of the
shorter list, with the value `d` when no byte differs. -/
def lexD (d : Int) : List Byte → List Byte → Int
  | z :: zs, y :: ys =>
    if z.val < y.val then -1
    else if y.val < z.val then 1
    else lexD d zs ys
  | _, _ => d

/-! ## Words on a little-endian host -/

theorem wordAt_little (x0 x1 x2 x3 : Byte) (r : List Byte) :
    wordAt Endian.little (x0 :: x1 :: x2 :: x3 :: r) = some (be32 x0 x1 x2 x3) := by
  have h0 := x0.isLt
  have h1 := x1.isLt
  have h2 := x2.isLt
  have h3 := x3.isLt
  simp only [wordAt, load32, ntohl, byteswap32, be32, Option.map_some']
  congr 1
  omega

/-- On either host the word the loop compares is the big-endian value of the
four bytes. -/
theorem wordAt_cons4 (host : Endian) (x0 x1 x2 x3 : Byte) (r : List Byte) :
    wordAt host (x0 :: x1 :: x2 :: x3 :: r) = some (be32 x0 x1 x2 x3) := by
  cases host with
  | little => exact wordAt_little x0 x1 x2 x3 r
  | big => rfl

theorem wordAt_short (host : Endian) (p : List Byte) (h : p.length < 4) :
    wordAt host p = none := by
  match p, h with
  | [], _ => rfl
  | [_], _ => rfl
  | [_, _], _ => rfl
  | [_, _, _], _ => rfl
  | _ :: _ :: _ :: _ :: _, h => simp at h; omega

theorem and_mask8 (w : Nat) : w &&& 255 = w % 256 :=
  Nat.and_pow_two_sub_one_eq_mod w 8

theorem and_mask16 (w : Nat) : w &&& 65535 = w % 65536 :=
  Nat.and_pow_two_sub_one_eq_mod w 16

theorem and_mask24 (w : Nat) : w &&& 16777215 = w % 16777216 :=
  Nat.and_pow_two_sub_one_eq_mod w 24

theorem tailWordB_little_one (x0 x1 x2 x3 : Byte) (r : List Byte) :
    tailWordB Endian.little (x0 :: x1 :: x2 :: x3 :: r) 1 = some (be32 x0 0 0 0) := by
  have h0 := x0.isLt
  have h1 := x1.isLt
  have h2 := x2.isLt
  have h3 := x3.isLt
  simp only [tailWordB, load32, ntohl, byteswap32, be32, tailMask, Option.map_some']
  norm_num [and_mask8]
  omega

theorem tailWordB_little_two (x0 x1 x2 x3 : Byte) (r : List Byte) :
    tailWordB Endian.little (x0 :: x1 :: x2 :: x3 :: r) 2 = some (be32 x0 x1 0 0) := by
  have h0 := x0.isLt
  have h1 := x1.isLt
  have h2 := x2.isLt
  have h3 := x3.isLt
  simp only [tailWordB, load32, ntohl, byteswap32, be32, tailMask, Option.map_some']
  norm_num [and_mask16]
  omega

theorem tailWordB_little_three (x0 x1 x2 x3 : Byte) (r : List Byte) :
    tailWordB Endian.little (x0 :: x1 :: x2 :: x3 :: r) 3 = some (be32 x0 x1 x2 0) := by
  have h0 := x0.isLt
  have h1 := x1.isLt
  have h2 := x2.isLt
  have h3 := x3.isLt
  simp only [tailWordB, load32, ntohl, byteswap32, be32, tailMask, Option.map_some']
  norm_num [and_mask24]
  omega

/-! ## The loop against the byte-wise comparison -/

theorem lexD_word (d : Int) (x0 x1 x2 x3 y0 y1 y2 y3 : Byte) (zs ys : List Byte) :
    lexD d (x0 :: x1 :: x2 :: x3 :: zs) (y0 :: y1 :: y2 :: y3 :: ys) =
      if be32 x0 x1 x2 x3 > be32 y0 y1 y2 y3 then 1
      else if be32 x0 x1 x2 x3 < be32 y0 y1 y2 y3 then -1
      else lexD d zs ys := by
  have h0 := x0.isLt
  have h1 := x1.isLt
  have h2 := x2.isLt
  have h3 := x3.isLt
  have k0 := y0.isLt
  have k1 := y1.isLt
  have k2 := y2.isLt
  have k3 := y3.isLt
  simp only [lexD, be32]
  split_ifs <;> first | rfl | omega

theorem exists_cons4 (l : List Byte) (h : 4 ≤ l.length) :
    ∃ x0 x1 x2 x3 r, l = x0 :: x1 :: x2 :: x3 :: r := by
  match l, h with
  | x0 :: x1 :: x2 :: x3 :: r, _ => exact ⟨x0, x1, x2, x3, r, rfl⟩
  | [], h => simp at h
  | [_], h => simp at h
  | [_, _], h => simp at h
  | [_, _, _], h => simp at h

theorem padLen_add_four (n : Nat) : padLen (n + 4) = padLen n := by
  unfold padLen
  omega

theorem roundUp4_add_four (n : Nat) : roundUp4 (n + 4) = roundUp4 n + 4 := by
  unfold roundUp4
  rw [padLen_add_four]
  omega

theorem roundUp4_mod (n : Nat) : roundUp4 n % 4 = 0 := by
  unfold roundUp4 padLen
  omega

theorem le_roundUp4 (n : Nat) : n ≤ roundUp4 n := by
  unfold roundUp4
  omega

theorem loop_step (host : Endian) (a b : MDB_val) (dataA dataB : List Byte) (n : Nat) :
    compareFast.loop host a b dataA dataB (n + 4) =
      match wordAt host dataA, wordAt host dataB with
      | some aVal, some bVal =>
        if aVal > bVal then some 1
        else if aVal < bVal then some (-1)
        else compareFast.loop host a b (dataA.drop 4) (dataB.drop 4) n
      | _, _ => none := by
  rw [compareFast.loop]

theorem loop_zero (host : Endian) (a b : MDB_val) (dataA dataB : List Byte) :
    compareFast.loop host a b dataA dataB 0 = some (toInt (sizeSub a.mv_size b.mv_size)) := by
  simp [compareFast.loop]

theorem loop_tail (host : Endian) (a b : MDB_val) (dataA dataB : List Byte) (n : Nat)
    (h0 : n ≠ 0) (h4 : n < 4) :
    compareFast.loop host a b dataA dataB n =
      match wordAt host dataA, tailWordB host dataB n with
      | some aVal, some bVal =>
        if aVal > bVal then some 1
        else if aVal < bVal then some (-1)
        else some (toInt (sizeSub a.mv_size b.mv_size))
      | _, _ => none := by
  match n, h0, h4 with
  | 1, _, _ => simp [compareFast.loop]
  | 2, _, _ => simp [compareFast.loop]
  | 3, _, _ => simp [compareFast.loop]
  | 0, h0, _ => exact absurd rfl h0
  | n + 4, _, h4 => omega

theorem lexD_nil_right (d : Int) (zs : List Byte) : lexD d zs [] = d := by
  cases zs <;> rfl

/-- On a little-endian host, when the memory of `a` and of `b` is readable up
to the end of the word that holds the last byte of `b`, the loop and the tail
step compare `a`'s memory byte by byte against `b` followed by zero bytes up
to the word boundary, and fall back on the difference of the sizes. -/
theorem loop_little (a b : MDB_val) :
    ∀ (n : Nat) (zs key junk : List Byte), key.length = n → roundUp4 n ≤ zs.length →
      roundUp4 n ≤ (key ++ junk).length →
      compareFast.loop Endian.little a b zs (key ++ junk) n =
        some (lexD (toInt (sizeSub a.mv_size b.mv_size)) zs (key ++ List.replicate (padLen n) 0))
  | 0, zs, key, junk, hk, _, _ => by
    have : key = [] := List.length_eq_zero.mp hk
    subst this
    rw [loop_zero]
    simp [padLen, lexD_nil_right]
  | 1, zs, key, junk, hk, hz, hj => by
    obtain ⟨y0, rfl⟩ := List.length_eq_one.mp hk
    obtain ⟨x0, x1, x2, x3, zr, rfl⟩ := exists_cons4 zs (by simpa [roundUp4, padLen] using hz)
    obtain ⟨j0, j1, j2, j3, jr, hj4⟩ := exists_cons4 ([y0] ++ junk) (by simpa [roundUp4, padLen] using hj)
    rw [loop_tail _ _ _ _ _ 1 (by decide) (by decide), hj4, wordAt_little, tailWordB_little_one]
    have : j0 = y0 := by simpa using (List.cons.inj hj4).1.symm
    subst this
    show _ = some (lexD _ _ [j0, 0, 0, 0])
    rw [lexD_word, lexD_nil_right]
    simp only []
    split_ifs <;> rfl
  | 2, zs, key, junk, hk, hz, hj => by
    obtain ⟨y0, y1, rfl⟩ := List.length_eq_two.mp hk
    obtain ⟨x0, x1, x2, x3, zr, rfl⟩ := exists_cons4 zs (by simpa [roundUp4, padLen] using hz)
    obtain ⟨j0, j1, j2, j3, jr, hj4⟩ := exists_cons4 ([y0, y1] ++ junk) (by simpa [roundUp4, padLen] using hj)
    rw [loop_tail _ _ _ _ _ 2 (by decide) (by decide), hj4, wordAt_little, tailWordB_little_two]
    simp only [List.cons_append, List.nil_append, List.cons.injEq] at hj4
    obtain ⟨rfl, rfl, _⟩ := hj4
    show _ = some (lexD _ _ [y0, y1, 0, 0])
    rw [lexD_word, lexD_nil_right]
    simp only []
    split_ifs <;> rfl
  | 3, zs, key, junk, hk, hz, hj => by
    obtain ⟨y0, y1, y2, rfl⟩ := List.length_eq_three.mp hk
    obtain ⟨x0, x1, x2, x3, zr, rfl⟩ := exists_cons4 zs (by simpa [roundUp4, padLen] using hz)
    obtain ⟨j0, j1, j2, j3, jr, hj4⟩ := exists_cons4 ([y0, y1, y2] ++ junk) (by simpa [roundUp4, padLen] using hj)
    rw [loop_tail _ _ _ _ _ 3 (by decide) (by decide), hj4, wordAt_little, tailWordB_little_three]
    simp only [List.cons_append, List.nil_append, List.cons.injEq] at hj4
    obtain ⟨rfl, rfl, rfl, _⟩ := hj4
    show _ = some (lexD _ _ [y0, y1, y2, 0])
    rw [lexD_word, lexD_nil_right]
    simp only []
    split_ifs <;> rfl
  | n + 4, zs, key, junk, hk, hz, hj => by
    obtain ⟨y0, y1, y2, y3, kr, rfl⟩ := exists_cons4 key (by omega)
    rw [roundUp4_add_four] at hz hj
    obtain ⟨x0, x1, x2, x3, zr, rfl⟩ := exists_cons4 zs (by omega)
    have hk2 : kr.length = n := by simpa using hk
    have hz2 : roundUp4 n ≤ zr.length := by simpa using hz
    have hj2 : roundUp4 n ≤ (kr ++ junk).length := by simpa using hj
    have ih := loop_little a b n zr kr junk hk2 hz2 hj2
    rw [loop_step, padLen_add_four]
    simp only [List.cons_append, wordAt_little, List.drop_succ_cons, List.drop_zero]
    rw [lexD_word, ih]
    split_ifs <;> rfl

/-! ## The byte-wise comparison against the reference -/

theorem lexD_zeros_left (d : Int) : ∀ (k : Nat) (ys : List Byte),
    lexD d (List.replicate k 0) ys = d ∨ lexD d (List.replicate k 0) ys = -1
  | 0, ys => by left; cases ys <;> rfl
  | k + 1, [] => by left; rfl
  | k + 1, y :: ys => by
    simp only [List.replicate_succ, lexD]
    have ih := lexD_zeros_left d k ys
    split_ifs with h1 h2
    · right; rfl
    · simp at h2
    · exact ih

theorem lexD_zeros_right (d : Int) : ∀ (p : Nat) (zs : List Byte),
    lexD d zs (List.replicate p 0) = d ∨ lexD d zs (List.replicate p 0) = 1
  | 0, zs => by left; cases zs <;> rfl
  | p + 1, [] => by left; rfl
  | p + 1, z :: zs => by
    simp only [List.replicate_succ, lexD]
    have ih := lexD_zeros_right d p zs
    split_ifs with h1 h2
    · simp at h1
    · right; rfl
    · exact ih

theorem refCompare_nil_left (ys : List Byte) (h : ys ≠ []) : refCompare [] ys = -1 := by
  cases ys with
  | nil => exact absurd rfl h
  | cons y ys => rfl

/-- The byte-wise comparison of the zero-extended key `xs` against the
zero-extended key `ys` has the sign of the reference comparison, when the
fallback value `d` has the sign of the difference of the lengths. -/
theorem sign_lexD_eq_refCompare (d : Int) : ∀ (xs ys : List Byte) (k p : Nat),
    Int.sign d = Int.sign ((xs.length : Int) - (ys.length : Int)) →
    Int.sign (lexD d (xs ++ List.replicate k 0) (ys ++ List.replicate p 0)) = refCompare xs ys
  | [], [], k, p, hd => by
    have hd0 : d = 0 := by simpa [Int.sign_eq_zero_iff_zero] using hd
    subst hd0
    rcases lexD_zeros_left 0 k (List.replicate p 0) with h | h
    · simp [h, refCompare]
    · rcases lexD_zeros_right 0 p (List.replicate k 0) with h2 | h2
      · simp [h2, refCompare]
      · simp only [List.nil_append] at h ⊢
        rw [h] at h2
        exact absurd h2 (by decide)
  | [], y :: ys, k, p, hd => by
    have hneg : Int.sign d = -1 := by
      rw [hd]
      apply Int.sign_eq_neg_one_of_neg
      simp only [List.length_nil, List.length_cons]
      push_cast
      omega
    rcases lexD_zeros_left d k ((y :: ys) ++ List.replicate p 0) with h | h
    · simp only [List.nil_append, h, hneg, refCompare]
    · simp only [List.nil_append, h, refCompare]
      rfl
  | x :: xs, [], k, p, hd => by
    have hpos : Int.sign d = 1 := by
      rw [hd]
      apply Int.sign_eq_one_of_pos
      simp only [List.length_nil, List.length_cons]
      push_cast
      omega
    rcases lexD_zeros_right d p ((x :: xs) ++ List.replicate k 0) with h | h
    · simp only [List.nil_append, h, hpos, refCompare]
    · simp only [List.nil_append, h, refCompare]
      rfl
  | x :: xs, y :: ys, k, p, hd => by
    have ih := sign_lexD_eq_refCompare d xs ys k p (by
      rw [hd]
      simp only [List.length_cons]
      push_cast
      congr 1
      omega)
    simp only [List.cons_append, lexD, refCompare]
    split_ifs
    · rfl
    · rfl
    · exact ih

/-! ## The final return value -/

theorem toInt_sizeSub (x y : Nat)
    (hlo : -(2 ^ 31 : Int) ≤ (x : Int) - (y : Int)) (hhi : (x : Int) - (y : Int) < 2 ^ 31) :
    toInt (sizeSub x y) = (x : Int) - (y : Int) := by
  unfold toInt sizeSub
  norm_num at *
  split_ifs <;> omega

/-! ## Sufficiently padded query keys -/

/-- When the query key is followed by zero bytes up to the end of the word
that holds the last byte of the stored key, and the memory of the stored key
is readable up to there, the comparator returns a value whose sign is the
reference comparison (difference of the lengths within the range of `int`). -/
theorem compareFast_queryWith (xs ys junk : List Byte) (k : Nat)
    (hz : roundUp4 ys.length ≤ xs.length + k)
    (hj : padLen ys.length ≤ junk.length)
    (hlo : ys.length ≤ xs.length + 2 ^ 31) (hhi : xs.length < ys.length + 2 ^ 31) :
    ∃ r, compareFast Endian.little (queryWith k xs) (stored ys junk) = some r ∧
      Int.sign r = refCompare xs ys := by
  have hl := loop_little (queryWith k xs) (stored ys junk) ys.length
    (xs ++ List.replicate k 0) ys junk rfl (by simpa using hz) (by
      simp only [roundUp4, List.length_append]
      omega)
  refine ⟨_, hl, ?_⟩
  apply sign_lexD_eq_refCompare
  show Int.sign (toInt (sizeSub xs.length ys.length)) = _
  rw [toInt_sizeSub]
  · norm_num at hlo ⊢
    omega
  · norm_num at hhi ⊢
    omega

/-! ## Longer buffers and out-of-bounds reads -/

theorem wordAt_some_cons4 (host : Endian) (p : List Byte) (w : Nat) (h : wordAt host p = some w) :
    ∃ x0 x1 x2 x3 r, p = x0 :: x1 :: x2 :: x3 :: r := by
  apply exists_cons4
  by_contra hlt
  rw [wordAt_short host p (by omega)] at h
  exact absurd h (by simp)

/-- Memory after the part of `a` that a successful call has read does not
change the result. -/
theorem loop_append (host : Endian) (a b : MDB_val) (ext : List Byte) :
    ∀ (n : Nat) (zs dataB : List Byte) (r : Int),
      compareFast.loop host a b zs dataB n = some r →
      compareFast.loop host a b (zs ++ ext) dataB n = some r
  | 0, zs, dataB, r, h => by
    rw [loop_zero] at h ⊢
    exact h
  | 1, zs, dataB, r, h => by
    rw [loop_tail _ _ _ _ _ 1 (by decide) (by decide)] at h ⊢
    cases hw : wordAt host zs with
    | none => simp [hw] at h
    | some w =>
      obtain ⟨x0, x1, x2, x3, zr, rfl⟩ := wordAt_some_cons4 host zs w hw
      simpa [wordAt_cons4] using h
  | 2, zs, dataB, r, h => by
    rw [loop_tail _ _ _ _ _ 2 (by decide) (by decide)] at h ⊢
    cases hw : wordAt host zs with
    | none => simp [hw] at h
    | some w =>
      obtain ⟨x0, x1, x2, x3, zr, rfl⟩ := wordAt_some_cons4 host zs w hw
      simpa [wordAt_cons4] using h
  | 3, zs, dataB, r, h => by
    rw [loop_tail _ _ _ _ _ 3 (by decide) (by decide)] at h ⊢
    cases hw : wordAt host zs with
    | none => simp [hw] at h
    | some w =>
      obtain ⟨x0, x1, x2, x3, zr, rfl⟩ := wordAt_some_cons4 host zs w hw
      simpa [wordAt_cons4] using h
  | n + 4, zs, dataB, r, h => by
    rw [loop_step] at h ⊢
    cases hw : wordAt host zs with
    | none => simp [hw] at h
    | some w =>
      obtain ⟨x0, x1, x2, x3, zr, rfl⟩ := wordAt_some_cons4 host zs w hw
      simp only [List.cons_append, wordAt_cons4, List.drop_succ_cons, List.drop_zero] at h ⊢
      cases hb : wordAt host dataB with
      | none => simp [hb] at h
      | some wb =>
        simp only [hb] at h ⊢
        split_ifs at h ⊢ with h1 h2
        · exact h
        · exact h
        · exact loop_append host a b ext n zr (dataB.drop 4) r h

theorem be32_inj (x0 x1 x2 x3 y0 y1 y2 y3 : Byte) :
    be32 x0 x1 x2 x3 = be32 y0 y1 y2 y3 ↔ x0 = y0 ∧ x1 = y1 ∧ x2 = y2 ∧ x3 = y3 := by
  have h0 := x0.isLt
  have h1 := x1.isLt
  have h2 := x2.isLt
  have h3 := x3.isLt
  have k0 := y0.isLt
  have k1 := y1.isLt
  have k2 := y2.isLt
  have k3 := y3.isLt
  constructor
  · intro h
    unfold be32 at h
    refine ⟨Fin.ext ?_, Fin.ext ?_, Fin.ext ?_, Fin.ext ?_⟩ <;> omega
  · rintro ⟨rfl, rfl, rfl, rfl⟩
    rfl

theorem tailWordB_cons4 (host : Endian) (x0 x1 x2 x3 : Byte) (r : List Byte) (n : Nat) :
    ∃ w, tailWordB host (x0 :: x1 :: x2 :: x3 :: r) n = some w := by
  cases host <;> exact ⟨_, rfl⟩

theorem loop_tail_none_iff (host : Endian) (a b : MDB_val) (n : Nat) (h0 : n ≠ 0) (h4 : n < 4)
    (zs key junk : List Byte) (hk : key.length = n) (hz : zs.length % 4 = 0)
    (hj : roundUp4 n ≤ (key ++ junk).length) :
    compareFast.loop host a b zs (key ++ junk) n = none ↔ zs.length < n ∧ zs <+: key := by
  have hr : roundUp4 n = 4 := by
    unfold roundUp4 padLen
    omega
  obtain ⟨j0, j1, j2, j3, jr, hj4⟩ := exists_cons4 (key ++ junk) (by omega)
  rw [loop_tail _ _ _ _ _ n h0 h4, hj4]
  obtain ⟨w, hw⟩ := tailWordB_cons4 host j0 j1 j2 j3 jr n
  cases zs with
  | nil =>
    have : wordAt host [] = none := rfl
    simp only [this, true_iff]
    exact ⟨by simpa using Nat.pos_of_ne_zero h0, List.nil_prefix⟩
  | cons x0 zt =>
    obtain ⟨y0, y1, y2, y3, zr, hzs⟩ := exists_cons4 (x0 :: zt) (by
      simp only [List.length_cons] at hz ⊢
      omega)
    rw [hzs, wordAt_cons4, hw]
    constructor
    · intro h
      simp only [] at h
      split_ifs at h
    · rintro ⟨hlt, _⟩
      simp only [List.length_cons] at hlt
      omega

/-- The call reads outside the memory of `a` (whose length is a multiple of
4) exactly when the stored key is longer than that memory and begins with it. -/
theorem loop_none_iff (host : Endian) (a b : MDB_val) :
    ∀ (n : Nat) (zs key junk : List Byte), key.length = n → zs.length % 4 = 0 →
      roundUp4 n ≤ (key ++ junk).length →
      (compareFast.loop host a b zs (key ++ junk) n = none ↔ zs.length < n ∧ zs <+: key)
  | 0, zs, key, junk, _, _, _ => by
    rw [loop_zero]
    simp
  | 1, zs, key, junk, hk, hz, hj =>
    loop_tail_none_iff host a b 1 (by decide) (by decide) zs key junk hk hz hj
  | 2, zs, key, junk, hk, hz, hj =>
    loop_tail_none_iff host a b 2 (by decide) (by decide) zs key junk hk hz hj
  | 3, zs, key, junk, hk, hz, hj =>
    loop_tail_none_iff host a b 3 (by decide) (by decide) zs key junk hk hz hj
  | n + 4, zs, key, junk, hk, hz, hj => by
    obtain ⟨y0, y1, y2, y3, kr, rfl⟩ := exists_cons4 key (by omega)
    rw [roundUp4_add_four] at hj
    have hk2 : kr.length = n := by simpa using hk
    have hj2 : roundUp4 n ≤ (kr ++ junk).length := by simpa using hj
    rw [loop_step]
    cases zs with
    | nil =>
      have : wordAt host [] = none := rfl
      simp [this]
    | cons x0 zt =>
      obtain ⟨x0, x1, x2, x3, zr, hzs⟩ := exists_cons4 (x0 :: zt) (by
        simp only [List.length_cons] at hz ⊢
        omega)
      rw [hzs] at hz ⊢
      have hz2 : zr.length % 4 = 0 := by
        simp only [List.length_cons] at hz
        omega
      have ih := loop_none_iff host a b n zr kr junk hk2 hz2 hj2
      simp only [List.cons_append, wordAt_cons4, List.drop_succ_cons, List.drop_zero,
        List.cons_prefix_cons, List.length_cons]
      by_cases heq : be32 x0 x1 x2 x3 = be32 y0 y1 y2 y3
      · have hb := (be32_inj x0 x1 x2 x3 y0 y1 y2 y3).mp heq
        simp only [heq, gt_iff_lt, lt_irrefl, if_false, ih, hb, true_and]
        have hlen : zr.length + 1 + 1 + 1 + 1 < n + 4 ↔ zr.length < n := by omega
        rw [hlen]
      · have hne : ¬ (x0 = y0 ∧ x1 = y1 ∧ x2 = y2 ∧ x3 = y3) := fun hb =>
          heq ((be32_inj x0 x1 x2 x3 y0 y1 y2 y3).mpr hb)
        constructor
        · intro h
          split_ifs at h with h1 h2
          omega
        · rintro ⟨_, e0, e1, e2, e3, _⟩
          exact absurd ⟨e0, e1, e2, e3⟩ hne

/-! ## The result of a call that stays in bounds -/

theorem lexD_of_isPrefix (d : Int) : ∀ (zs ys : List Byte), ys <+: zs → lexD d zs ys = d
  | zs, [], _ => lexD_nil_right d zs
  | [], y :: ys, h => by simp at h
  | z :: zs, y :: ys, h => by
    rw [List.cons_prefix_cons] at h
    obtain ⟨rfl, h2⟩ := h
    simp only [lexD, lt_irrefl, if_false]
    exact lexD_of_isPrefix d zs ys h2

theorem lexD_eq_or (d e : Int) : ∀ (zs ys : List Byte),
    lexD d zs ys = lexD e zs ys ∨ (lexD d zs ys = d ∧ (zs <+: ys ∨ ys <+: zs))
  | [], ys => by
    right
    exact ⟨by cases ys <;> rfl, Or.inl List.nil_prefix⟩
  | z :: zs, [] => by
    right
    exact ⟨rfl, Or.inr List.nil_prefix⟩
  | z :: zs, y :: ys => by
    simp only [lexD]
    split_ifs with h1 h2
    · left; rfl
    · left; rfl
    · have hzy : z = y := Fin.ext (by omega)
      subst hzy
      rcases lexD_eq_or d e zs ys with h | ⟨h, hp⟩
      · left; exact h
      · right
        refine ⟨h, ?_⟩
        rcases hp with hp | hp
        · left; exact List.cons_prefix_cons.mpr ⟨rfl, hp⟩
        · right; exact List.cons_prefix_cons.mpr ⟨rfl, hp⟩

theorem length_pad (n : Nat) (ys : List Byte) (h : ys.length = n) :
    (ys ++ List.replicate (padLen n) (0 : Byte)).length = roundUp4 n := by
  simp [roundUp4, h]

/-- A call on a query key followed by `k` zero bytes (buffer length a multiple
of 4) that returns `r` either has the sign of the reference comparison, or
found every compared word equal: then `r` is the converted difference of the
sizes and the stored key, zero-extended to its word boundary, begins the
buffer of the query key. -/
theorem compareFast_some_cases (xs ys junk : List Byte) (k : Nat) (r : Int)
    (hk : (xs.length + k) % 4 = 0) (hj : padLen ys.length ≤ junk.length)
    (h : compareFast Endian.little (queryWith k xs) (stored ys junk) = some r) :
    Int.sign r = refCompare xs ys ∨
      (r = toInt (sizeSub xs.length ys.length) ∧
        ys ++ List.replicate (padLen ys.length) 0 <+: xs ++ List.replicate k 0) := by
  have hj2 : roundUp4 ys.length ≤ (ys ++ junk).length := by
    simp only [roundUp4, List.length_append]
    omega
  have hin : ¬ ((xs ++ List.replicate k (0 : Byte)).length < ys.length ∧
      xs ++ List.replicate k 0 <+: ys) := by
    intro hext
    have hn := (loop_none_iff Endian.little (queryWith k xs) (stored ys junk) ys.length
      (xs ++ List.replicate k 0) ys junk rfl (by simpa using hk) hj2).mpr hext
    have h2 : compareFast.loop Endian.little (queryWith k xs) (stored ys junk)
        (xs ++ List.replicate k 0) (ys ++ junk) ys.length = some r := h
    rw [hn] at h2
    exact absurd h2 (by simp)
  have h1 := loop_append Endian.little (queryWith k xs) (stored ys junk)
    (List.replicate (roundUp4 ys.length) 0) ys.length (xs ++ List.replicate k 0) (ys ++ junk) r h
  have h2 := loop_little (queryWith k xs) (stored ys junk) ys.length
    (xs ++ List.replicate k 0 ++ List.replicate (roundUp4 ys.length) 0) ys junk rfl
    (by simp only [List.length_append, List.length_replicate]; omega) hj2
  rw [h2] at h1
  have hr := Option.some.inj h1
  have hsz : toInt (sizeSub (queryWith k xs).mv_size (stored ys junk).mv_size) =
      toInt (sizeSub xs.length ys.length) := rfl
  rw [hsz] at hr
  rcases lexD_eq_or (toInt (sizeSub xs.length ys.length)) ((xs.length : Int) - (ys.length : Int))
    (xs ++ List.replicate k 0 ++ List.replicate (roundUp4 ys.length) 0)
    (ys ++ List.replicate (padLen ys.length) 0) with he | ⟨he, hp⟩
  · left
    rw [← hr, he, List.append_assoc, List.append_replicate_replicate]
    exact sign_lexD_eq_refCompare _ xs ys _ _ rfl
  · right
    refine ⟨by rw [← hr, he], ?_⟩
    have hlenY := length_pad ys.length ys rfl
    have hYZ : ys ++ List.replicate (padLen ys.length) 0 <+:
        xs ++ List.replicate k 0 ++ List.replicate (roundUp4 ys.length) 0 := by
      rcases hp with hp | hp
      · have := hp.eq_of_length_le (by
          rw [hlenY]
          simp only [List.length_append, List.length_replicate]
          omega)
        rw [this]
      · exact hp
    have hPZ : xs ++ List.replicate k (0 : Byte) <+:
        xs ++ List.replicate k 0 ++ List.replicate (roundUp4 ys.length) 0 :=
      List.prefix_append _ _
    have hle : roundUp4 ys.length ≤ (xs ++ List.replicate k (0 : Byte)).length := by
      by_contra hlt
      apply hin
      have hlen : (xs ++ List.replicate k (0 : Byte)).length < ys.length := by
        have hm := roundUp4_mod ys.length
        have hP : (xs ++ List.replicate k (0 : Byte)).length % 4 = 0 := by simpa using hk
        have hru : roundUp4 ys.length < ys.length + 4 := by
          unfold roundUp4 padLen
          omega
        omega
      refine ⟨hlen, ?_⟩
      have hyZ : ys <+: xs ++ List.replicate k 0 ++ List.replicate (roundUp4 ys.length) 0 :=
        (List.prefix_append ys _).trans hYZ
      exact List.prefix_of_prefix_length_le hPZ hyZ (le_of_lt hlen)
    exact List.prefix_of_prefix_length_le hYZ hPZ (by rw [hlenY]; exact hle)

/-! ## Properties of the reference comparison -/

theorem refCompare_values : ∀ (xs ys : List Byte),
    refCompare xs ys = -1 ∨ refCompare xs ys = 0 ∨ refCompare xs ys = 1
  | [], [] => Or.inr (Or.inl rfl)
  | [], _ :: _ => Or.inl rfl
  | _ :: _, [] => Or.inr (Or.inr rfl)
  | x :: xs, y :: ys => by
    simp only [refCompare]
    split_ifs
    · exact Or.inl rfl
    · exact Or.inr (Or.inr rfl)
    · exact refCompare_values xs ys

theorem sign_refCompare (xs ys : List Byte) : Int.sign (refCompare xs ys) = refCompare xs ys := by
  rcases refCompare_values xs ys with h | h | h <;> rw [h] <;> rfl

theorem refCompare_swap : ∀ (xs ys : List Byte), refCompare ys xs = -refCompare xs ys
  | [], [] => rfl
  | [], _ :: _ => rfl
  | _ :: _, [] => rfl
  | x :: xs, y :: ys => by
    simp only [refCompare]
    have ih := refCompare_swap xs ys
    split_ifs <;> first | rfl | omega

theorem refCompare_eq_zero_iff : ∀ (xs ys : List Byte), refCompare xs ys = 0 ↔ xs = ys
  | [], [] => by simp [refCompare]
  | [], _ :: _ => by simp [refCompare]
  | _ :: _, [] => by simp [refCompare]
  | x :: xs, y :: ys => by
    simp only [refCompare, List.cons.injEq]
    have ih := refCompare_eq_zero_iff xs ys
    split_ifs with h1 h2
    · constructor
      · intro h; exact absurd h (by decide)
      · rintro ⟨rfl, _⟩; omega
    · constructor
      · intro h; exact absurd h (by decide)
      · rintro ⟨rfl, _⟩; omega
    · have hxy : x = y := Fin.ext (by omega)
      simp [hxy, ih]

theorem refCompare_trans : ∀ (xs ys zs : List Byte),
    refCompare xs ys = -1 → refCompare ys zs = -1 → refCompare xs zs = -1
  | [], [], _, h, _ => by simp [refCompare] at h
  | [], _ :: _, [], _, h => by simp [refCompare] at h
  | [], _ :: _, _ :: _, _, _ => rfl
  | _ :: _, [], _, h, _ => by simp [refCompare] at h
  | _ :: _, _ :: _, [], _, h => by simp [refCompare] at h
  | x :: xs, y :: ys, z :: zs, h1, h2 => by
    simp only [refCompare] at h1 h2 ⊢
    have ih := refCompare_trans xs ys zs
    split_ifs at h1 h2 ⊢ <;> first | rfl | omega

theorem refCompare_of_isPrefix : ∀ (xs ys : List Byte),
    xs <+: ys → xs.length < ys.length → refCompare xs ys = -1
  | [], [], _, h => by simp at h
  | [], _ :: _, _, _ => rfl
  | _ :: _, [], h, _ => by simp at h
  | x :: xs, y :: ys, h, hl => by
    rw [List.cons_prefix_cons] at h
    obtain ⟨rfl, h2⟩ := h
    simp only [refCompare, lt_irrefl, if_false]
    exact refCompare_of_isPrefix xs ys h2 (by simpa using hl)

/-- The reference comparison is the library's lexicographic order on lists of
bytes: it answers -1 exactly when the first key is lexicographically smaller. -/
theorem refCompare_eq_neg_one_iff_lex : ∀ (xs ys : List Byte),
    refCompare xs ys = -1 ↔ List.Lex (fun (x y : Byte) => x < y) xs ys
  | [], [] => by
    simp [refCompare]
  | [], y :: ys => by
    simp [refCompare, List.Lex.nil]
  | x :: xs, [] => by
    simp [refCompare]
  | x :: xs, y :: ys => by
    have ih := refCompare_eq_neg_one_iff_lex xs ys
    simp only [refCompare]
    constructor
    · intro h
      split_ifs at h with h1 h2
      · exact List.Lex.rel (Fin.lt_def.mpr h1)
      · have hxy : x = y := Fin.ext (by omega)
        subst hxy
        exact List.Lex.cons (ih.mp h)
    · intro h
      cases h with
      | cons h' =>
        simp only [lt_irrefl, if_false]
        exact ih.mpr h'
      | rel h' =>
        simp [Fin.lt_def.mp h']

/-! ## Calls on padded query keys -/

/-- The call on a query key followed by `k` zero bytes reads outside that
buffer exactly when the stored key is longer than it and begins with it. -/
theorem compareFast_none_iff (host : Endian) (xs ys junk : List Byte) (k : Nat)
    (hk : (xs.length + k) % 4 = 0) (hj : padLen ys.length ≤ junk.length) :
    compareFast host (queryWith k xs) (stored ys junk) = none ↔
      xs.length + k < ys.length ∧ xs ++ List.replicate k 0 <+: ys := by
  have h := loop_none_iff host (queryWith k xs) (stored ys junk) ys.length
    (xs ++ List.replicate k 0) ys junk rfl (by simpa using hk) (by
      simp only [roundUp4, List.length_append]
      omega)
  simpa using h

/-- A call that returns has the sign of the reference comparison, when the
query key is not 2^31 bytes or more longer than the stored key. -/
theorem compareFast_sign_of_some (xs ys junk : List Byte) (k : Nat) (r : Int)
    (hk : (xs.length + k) % 4 = 0) (hj : padLen ys.length ≤ junk.length)
    (hk31 : k ≤ 2 ^ 31) (hlen : xs.length < ys.length + 2 ^ 31)
    (h : compareFast Endian.little (queryWith k xs) (stored ys junk) = some r) :
    Int.sign r = refCompare xs ys := by
  rcases compareFast_some_cases xs ys junk k r hk hj h with hs | ⟨hr, hp⟩
  · exact hs
  · have hle := hp.length_le
    simp only [List.length_append, List.length_replicate] at hle
    have hd : toInt (sizeSub xs.length ys.length) = (xs.length : Int) - (ys.length : Int) := by
      apply toInt_sizeSub
      · norm_num at hk31 ⊢
        omega
      · norm_num at hlen ⊢
        omega
    rw [hr, hd]
    have hs := sign_lexD_eq_refCompare ((xs.length : Int) - (ys.length : Int)) xs ys k
      (padLen ys.length) rfl
    rw [lexD_of_isPrefix _ _ _ hp] at hs
    exact hs

/-- A query key padded to the next multiple of 4 against a stored key that
does not run past the padded buffer while beginning with it. -/
theorem compareFast_query (xs ys junk : List Byte) (hj : padLen ys.length ≤ junk.length)
    (hin : ¬ (roundUp4 xs.length < ys.length ∧
      xs ++ List.replicate (padLen xs.length) 0 <+: ys))
    (hlen : xs.length < ys.length + 2 ^ 31) :
    ∃ r, compareFast Endian.little (query xs) (stored ys junk) = some r ∧
      Int.sign r = refCompare xs ys := by
  have hk : (xs.length + padLen xs.length) % 4 = 0 := roundUp4_mod xs.length
  cases hc : compareFast Endian.little (query xs) (stored ys junk) with
  | none =>
    exact absurd ((compareFast_none_iff Endian.little xs ys junk _ hk hj).mp hc) hin
  | some r =>
    refine ⟨r, rfl, ?_⟩
    refine compareFast_sign_of_some xs ys junk (padLen xs.length) r hk hj ?_ hlen hc
    unfold padLen
    omega

/-- When every compared word of `a` equals the word of `b` (the stored bytes,
zero-extended to the word boundary, begin the memory of `a`), the call
returns the converted difference of the sizes. -/
theorem compareFast_words_equal (a b : MDB_val)
    (hb : roundUp4 b.mv_size ≤ b.mv_data.length)
    (hp : b.mv_data.take b.mv_size ++ List.replicate (padLen b.mv_size) 0 <+: a.mv_data) :
    compareFast Endian.little a b = some (toInt (sizeSub a.mv_size b.mv_size)) := by
  have hn : b.mv_size ≤ b.mv_data.length := le_trans (le_roundUp4 _) hb
  have hlt : (b.mv_data.take b.mv_size).length = b.mv_size := by
    rw [List.length_take]
    omega
  have hle := hp.length_le
  rw [List.length_append, List.length_replicate, hlt] at hle
  have h := loop_little a b b.mv_size a.mv_data (b.mv_data.take b.mv_size)
    (b.mv_data.drop b.mv_size) hlt hle (by rw [List.take_append_drop]; exact hb)
  rw [List.take_append_drop] at h
  rw [lexD_of_isPrefix _ _ _ hp] at h
  exact h

/-- A call that returns has the sign of the reference comparison when the
call with the roles exchanged stays in bounds as well. -/
theorem compareFast_sign_of_both (x y jy : List Byte) (r : Int)
    (hjy : padLen y.length ≤ jy.length)
    (hyx : ¬ (roundUp4 y.length < x.length ∧ y ++ List.replicate (padLen y.length) 0 <+: x))
    (h : compareFast Endian.little (query x) (stored y jy) = some r) :
    Int.sign r = refCompare x y := by
  have hk : (x.length + padLen x.length) % 4 = 0 := roundUp4_mod x.length
  have hk3 : padLen x.length ≤ 2 ^ 31 := by
    unfold padLen
    omega
  rcases compareFast_some_cases x y jy (padLen x.length) r hk hjy h with hs | ⟨_, hp⟩
  · exact hs
  · have hlen : x.length ≤ roundUp4 y.length := by
      by_contra hlt
      apply hyx
      refine ⟨by omega, ?_⟩
      refine List.prefix_of_prefix_length_le hp (List.prefix_append x _) ?_
      rw [length_pad y.length y rfl]
      omega
    refine compareFast_sign_of_some x y jy (padLen x.length) r hk hjy hk3 ?_ h
    have : roundUp4 y.length < y.length + 4 := by
      unfold roundUp4 padLen
      omega
    omega

theorem replicate_isPrefix (m n : Nat) (l : List Byte) (h : m ≤ n) :
    List.replicate m (0 : Byte) <+: List.replicate n 0 ++ l := by
  obtain ⟨d, rfl⟩ := Nat.exists_eq_add_of_le h
  rw [List.replicate_add, List.append_assoc]
  exact List.prefix_append _ _

/-! ## Evaluation on keys of zero bytes and on the empty stored key -/

theorem refCompare_zeros_nil (n : Nat) (h : 0 < n) :
    refCompare (List.replicate n 0) [] = 1 := by
  cases n with
  | zero => omega
  | succ m => rfl

theorem query_zeros_size (n : Nat) : (query (List.replicate n 0)).mv_size = n := by
  simp [query, queryWith]

theorem compareFast_stored_nil (host : Endian) (a : MDB_val) (junk : List Byte) :
    compareFast host a (stored [] junk) = some (toInt (sizeSub a.mv_size 0)) :=
  loop_zero host a (stored [] junk) a.mv_data ([] ++ junk)

/-- Two keys of zero bytes: every compared word is equal and the call returns
the converted difference of the lengths. -/
theorem compareFast_zeros_with (n m k : Nat) (junk : List Byte) (hj : padLen m ≤ junk.length)
    (hnm : roundUp4 m ≤ n + k) :
    compareFast Endian.little (queryWith k (List.replicate n 0))
      (stored (List.replicate m 0) junk) = some (toInt (sizeSub n m)) := by
  have h := compareFast_words_equal (queryWith k (List.replicate n 0))
    (stored (List.replicate m 0) junk)
    (by
      simp only [stored, List.length_append, List.length_replicate, roundUp4]
      omega)
    (by
      simp only [stored, queryWith, List.length_replicate, List.take_left',
        List.append_replicate_replicate]
      exact (List.IsPrefix.trans (replicate_isPrefix _ _ [] hnm) (by simp [roundUp4])))
  simpa [stored, queryWith] using h

theorem compareFast_zeros (n m : Nat) (junk : List Byte) (hj : padLen m ≤ junk.length)
    (hnm : roundUp4 m ≤ roundUp4 n) :
    compareFast Endian.little (query (List.replicate n 0)) (stored (List.replicate m 0) junk) =
      some (toInt (sizeSub n m)) := by
  unfold query
  rw [List.length_replicate]
  exact compareFast_zeros_with n m (padLen n) junk hj hnm

theorem toInt_sizeSub_eq_zero (x y : Nat) (h : toInt (sizeSub x y) = 0) (hlo : y ≤ x + 3)
    (hhi : x < y + 2 ^ 32) : x = y := by
  unfold toInt sizeSub at h
  norm_num at *
  split_ifs at h <;> omega

/-! ## Stored memory past the declared size -/

theorem loop_nil (host : Endian) (a b : MDB_val) (dataB : List Byte) :
    ∀ (n : Nat), n ≠ 0 → compareFast.loop host a b [] dataB n = none
  | 0, h => absurd rfl h
  | 1, _ => by rw [loop_tail _ _ _ _ _ 1 (by decide) (by decide)]; rfl
  | 2, _ => by rw [loop_tail _ _ _ _ _ 2 (by decide) (by decide)]; rfl
  | 3, _ => by rw [loop_tail _ _ _ _ _ 3 (by decide) (by decide)]; rfl
  | n + 4, _ => by rw [loop_step]; rfl

theorem replicate_ne_nil (n : Nat) (h : 0 < n) : List.replicate n (0 : Byte) ≠ [] := by
  cases n with
  | zero => omega
  | succ m => simp [List.replicate_succ]

theorem tailWordB_short (host : Endian) (p : List Byte) (n : Nat) (h : p.length < 4) :
    tailWordB host p n = none := by
  match p, h with
  | [], _ => rfl
  | [_], _ => rfl
  | [_, _], _ => rfl
  | [_, _, _], _ => rfl
  | _ :: _ :: _ :: _ :: _, h => simp at h; omega

theorem tailWordB_congr (n : Nat) (h0 : n ≠ 0) (h4 : n < 4) (p q : List Byte)
    (ht : p.take n = q.take n) (hl : 4 ≤ p.length ↔ 4 ≤ q.length) :
    tailWordB Endian.little p n = tailWordB Endian.little q n := by
  by_cases hp : 4 ≤ p.length
  · obtain ⟨x0, x1, x2, x3, pr, rfl⟩ := exists_cons4 p hp
    obtain ⟨y0, y1, y2, y3, qr, rfl⟩ := exists_cons4 q (hl.mp hp)
    match n, h0, h4 with
    | 1, _, _ =>
      simp only [List.take_succ_cons, List.take_zero, List.cons.injEq, and_true] at ht
      rw [tailWordB_little_one, tailWordB_little_one, ht]
    | 2, _, _ =>
      simp only [List.take_succ_cons, List.take_zero, List.cons.injEq, and_true] at ht
      rw [tailWordB_little_two, tailWordB_little_two, ht.1, ht.2]
    | 3, _, _ =>
      simp only [List.take_succ_cons, List.take_zero, List.cons.injEq, and_true] at ht
      rw [tailWordB_little_three, tailWordB_little_three, ht.1, ht.2.1, ht.2.2]
    | 0, h0, _ => exact absurd rfl h0
    | n + 4, _, h4 => omega
  · have hq : ¬ 4 ≤ q.length := fun h => hp (hl.mpr h)
    rw [tailWordB_short _ p n (by omega), tailWordB_short _ q n (by omega)]

theorem wordAt_congr (host : Endian) (n : Nat) (p q : List Byte)
    (ht : p.take (n + 4) = q.take (n + 4)) :
    wordAt host p = wordAt host q ∧ (p.drop 4).take n = (q.drop 4).take n ∧
      (4 ≤ p.length ↔ 4 ≤ q.length) := by
  have hlen : min (n + 4) p.length = min (n + 4) q.length := by
    have := congrArg List.length ht
    simpa [List.length_take] using this
  by_cases hp : 4 ≤ p.length
  · have hq : 4 ≤ q.length := by omega
    obtain ⟨x0, x1, x2, x3, pr, rfl⟩ := exists_cons4 p hp
    obtain ⟨y0, y1, y2, y3, qr, rfl⟩ := exists_cons4 q hq
    simp only [List.take_succ_cons, List.cons.injEq] at ht
    obtain ⟨rfl, rfl, rfl, rfl, ht⟩ := ht
    exact ⟨rfl, by simpa using ht, by simp⟩
  · have hq : ¬ 4 ≤ q.length := by omega
    refine ⟨?_, ?_, by omega⟩
    · rw [wordAt_short _ p (by omega), wordAt_short _ q (by omega)]
    · rw [List.drop_of_length_le (by omega), List.drop_of_length_le (by omega)]

/-- The loop on two memories of `b` that agree on the `n` bytes still to be
compared. -/
theorem loop_congr (a b1 b2 : MDB_val) (hs : b1.mv_size = b2.mv_size) :
    ∀ (n : Nat) (zs p q : List Byte), p.take n = q.take n →
      (roundUp4 n ≤ p.length ↔ roundUp4 n ≤ q.length) →
      compareFast.loop Endian.little a b1 zs p n = compareFast.loop Endian.little a b2 zs q n
  | 0, zs, p, q, _, _ => by rw [loop_zero, loop_zero, hs]
  | 1, zs, p, q, ht, hl => by
    rw [loop_tail _ _ _ _ _ 1 (by decide) (by decide), loop_tail _ _ _ _ _ 1 (by decide) (by decide),
      tailWordB_congr 1 (by decide) (by decide) p q ht hl, hs]
  | 2, zs, p, q, ht, hl => by
    rw [loop_tail _ _ _ _ _ 2 (by decide) (by decide), loop_tail _ _ _ _ _ 2 (by decide) (by decide),
      tailWordB_congr 2 (by decide) (by decide) p q ht hl, hs]
  | 3, zs, p, q, ht, hl => by
    rw [loop_tail _ _ _ _ _ 3 (by decide) (by decide), loop_tail _ _ _ _ _ 3 (by decide) (by decide),
      tailWordB_congr 3 (by decide) (by decide) p q ht hl, hs]
  | n + 4, zs, p, q, ht, hl => by
    obtain ⟨hw, hd, h4⟩ := wordAt_congr Endian.little n p q ht
    rw [loop_step, loop_step, hw]
    have ih := loop_congr a b1 b2 hs n (zs.drop 4) (p.drop 4) (q.drop 4) hd (by
      rw [roundUp4_add_four] at hl
      simp only [List.length_drop]
      omega)
    rw [ih]

/-! ## The claims -/

/-- Claim C1 fails as stated. The stored key `01 02 03 00 05` begins with the
whole padded buffer `01 02 03 00` of the query key `01 02 03`, so the tail
step loads a word of `a` behind that buffer and the call has no result, while
the reference comparison says "less". A query key of 2^31 zero bytes against
the empty stored key returns `INT_MIN`, a negative value, while the reference
says "greater". -/
theorem compareFast_refines_refCompare_fails :
    (compareFast Endian.little (query [1, 2, 3]) (stored [1, 2, 3, 0, 5] [0, 0, 0]) = none ∧
      refCompare [1, 2, 3] [1, 2, 3, 0, 5] = -1) ∧
    (compareFast Endian.little (query (List.replicate (2 ^ 31) 0)) (stored [] []) =
        some (-2147483648) ∧
      refCompare (List.replicate (2 ^ 31) 0) [] = 1) := by
  refine ⟨by decide, ?_, ?_⟩
  · rw [compareFast_stored_nil, query_zeros_size]
    decide
  · exact refCompare_zeros_nil _ (by norm_num)

/-- Claim C1, amended. On a little-endian host, for every query key `a`
zero-padded to the next multiple of 4 bytes and every stored key `b` (the
bytes that complete its last word being readable), provided `b` is not both
longer than the padded buffer of `a` and equal to it over its whole length,
and `a` is less than 2^31 bytes longer than `b`: the call returns a value
whose sign is the sign of the byte-by-byte reference comparison. -/
theorem compareFast_refines_refCompare (a b junk : List Byte)
    (hj : padLen b.length ≤ junk.length)
    (hin : ¬ (roundUp4 a.length < b.length ∧
      a ++ List.replicate (padLen a.length) 0 <+: b))
    (hlen : a.length < b.length + 2 ^ 31) :
    ∃ r, compareFast Endian.little (query a) (stored b junk) = some r ∧
      Int.sign r = Int.sign (refCompare a b) := by
  rw [sign_refCompare]
  exact compareFast_query a b junk hj hin hlen

/-- The amended claim C1 at the query key `01` and the stored key `01 00`. -/
theorem compareFast_refines_refCompare_witness :
    padLen [(1 : Byte), 0].length ≤ [(7 : Byte), 7].length ∧
    ¬ (roundUp4 [(1 : Byte)].length < [(1 : Byte), 0].length ∧
      [(1 : Byte)] ++ List.replicate (padLen [(1 : Byte)].length) 0 <+: [1, 0]) ∧
    [(1 : Byte)].length < [(1 : Byte), 0].length + 2 ^ 31 ∧
    ∃ r, compareFast Endian.little (query [1]) (stored [1, 0] [7, 7]) = some r ∧
      Int.sign r = Int.sign (refCompare [1] [1, 0]) :=
  ⟨by decide, by decide, by decide,
    compareFast_refines_refCompare [1] [1, 0] [7, 7] (by decide) (by decide) (by decide)⟩

/-- Claim C2 fails as stated. The query key `07` is padded to `07 00 00 00`;
comparing it against the stored key `07 00 00 00 01` loads a word behind that
buffer and the call has no result, while the call with the roles exchanged
returns 4. -/
theorem compareFast_antisymm_fails :
    compareFast Endian.little (query [7]) (stored [7, 0, 0, 0, 1] [0, 0, 0]) = none ∧
    compareFast Endian.little (query [7, 0, 0, 0, 1]) (stored [7] [0, 0, 0]) = some 4 := by
  decide

/-- Claim C2, amended. On a little-endian host, for any two keys `x` and `y`
neither of which is both longer than the padded buffer of the other and equal
to it over its whole length, both calls return, and the sign of
`compareFast(x padded, y)` is the negation of the sign of
`compareFast(y padded, x)`. -/
theorem compareFast_antisymm (x y jx jy : List Byte)
    (hjx : padLen x.length ≤ jx.length) (hjy : padLen y.length ≤ jy.length)
    (hxy : ¬ (roundUp4 x.length < y.length ∧ x ++ List.replicate (padLen x.length) 0 <+: y))
    (hyx : ¬ (roundUp4 y.length < x.length ∧ y ++ List.replicate (padLen y.length) 0 <+: x)) :
    ∃ r s, compareFast Endian.little (query x) (stored y jy) = some r ∧
      compareFast Endian.little (query y) (stored x jx) = some s ∧
      Int.sign r = -Int.sign s := by
  cases hr : compareFast Endian.little (query x) (stored y jy) with
  | none =>
    exact absurd ((compareFast_none_iff Endian.little x y jy _ (roundUp4_mod x.length) hjy).mp hr) hxy
  | some r =>
    cases hs : compareFast Endian.little (query y) (stored x jx) with
    | none =>
      exact absurd ((compareFast_none_iff Endian.little y x jx _ (roundUp4_mod y.length) hjx).mp hs)
        hyx
    | some s =>
      refine ⟨r, s, rfl, rfl, ?_⟩
      rw [compareFast_sign_of_both x y jy r hjy hyx hr,
        compareFast_sign_of_both y x jx s hjx hxy hs, refCompare_swap x y, neg_neg]

/-- The amended claim C2 at the keys `01 02` and `01 03 05`. -/
theorem compareFast_antisymm_witness :
    padLen [(1 : Byte), 2].length ≤ [(9 : Byte), 9].length ∧
    padLen [(1 : Byte), 3, 5].length ≤ [(9 : Byte)].length ∧
    ¬ (roundUp4 [(1 : Byte), 2].length < [(1 : Byte), 3, 5].length ∧
      [(1 : Byte), 2] ++ List.replicate (padLen [(1 : Byte), 2].length) 0 <+: [1, 3, 5]) ∧
    ¬ (roundUp4 [(1 : Byte), 3, 5].length < [(1 : Byte), 2].length ∧
      [(1 : Byte), 3, 5] ++ List.replicate (padLen [(1 : Byte), 3, 5].length) 0 <+: [1, 2]) ∧
    ∃ r s, compareFast Endian.little (query [1, 2]) (stored [1, 3, 5] [9]) = some r ∧
      compareFast Endian.little (query [1, 3, 5]) (stored [1, 2] [9, 9]) = some s ∧
      Int.sign r = -Int.sign s :=
  ⟨by decide, by decide, by decide, by decide,
    compareFast_antisymm [1, 2] [1, 3, 5] [9, 9] [9] (by decide) (by decide) (by decide)
      (by decide)⟩


/-- Claim C3 fails as stated. Comparing the query key `05 06 07`, padded to
`05 06 07 00`, with the stored key `05 06 07 00 00` reads behind the buffer
of the query key, so none of "negative", "zero", "positive" holds. With `x` = 2^31 + 3 zero
bytes, `y` = `00 00 00` and `z` = `00 00 00 00` the calls return
`compare(x, y) < 0` and `compare(y, z) < 0` but `compare(x, z) > 0`. -/
theorem compareFast_total_order_fails :
    compareFast Endian.little (query [5, 6, 7]) (stored [5, 6, 7, 0, 0] [0, 0, 0]) = none ∧
    (compareFast Endian.little (query (List.replicate (2 ^ 31 + 3) 0)) (stored [0, 0, 0] [0]) =
        some (-2147483648) ∧
      compareFast Endian.little (query [0, 0, 0]) (stored [0, 0, 0, 0] []) = some (-1) ∧
      compareFast Endian.little (query (List.replicate (2 ^ 31 + 3) 0)) (stored [0, 0, 0, 0] []) =
        some 2147483647) := by
  refine ⟨by decide, ?_, by decide, ?_⟩
  · have h := compareFast_zeros (2 ^ 31 + 3) 3 [0] (by decide) (by decide)
    rw [show toInt (sizeSub (2 ^ 31 + 3) 3) = -2147483648 by decide] at h
    exact h
  · have h := compareFast_zeros (2 ^ 31 + 3) 4 [] (by decide) (by decide)
    rw [show toInt (sizeSub (2 ^ 31 + 3) 4) = 2147483647 by decide] at h
    exact h

/-- Claim C3, amended. On a little-endian host, for all keys `x`, `y`, `z` such
that in each of the three comparisons the stored key is not both longer than
the padded buffer of the query key and equal to it over its whole length, and
the query key is less than 2^31 bytes longer than the stored key: the three
calls return; exactly one of `compare(x, y) < 0`, `= 0`, `> 0` holds; two
results 0 give `compare(x, z) = 0`; two negative results give
`compare(x, z) < 0`. -/
theorem compareFast_total_order (x y z jy jz : List Byte)
    (hjy : padLen y.length ≤ jy.length) (hjz : padLen z.length ≤ jz.length)
    (hxy : ¬ (roundUp4 x.length < y.length ∧ x ++ List.replicate (padLen x.length) 0 <+: y))
    (hyz : ¬ (roundUp4 y.length < z.length ∧ y ++ List.replicate (padLen y.length) 0 <+: z))
    (hxz : ¬ (roundUp4 x.length < z.length ∧ x ++ List.replicate (padLen x.length) 0 <+: z))
    (lxy : x.length < y.length + 2 ^ 31) (lyz : y.length < z.length + 2 ^ 31)
    (lxz : x.length < z.length + 2 ^ 31) :
    ∃ rxy ryz rxz, compareFast Endian.little (query x) (stored y jy) = some rxy ∧
      compareFast Endian.little (query y) (stored z jz) = some ryz ∧
      compareFast Endian.little (query x) (stored z jz) = some rxz ∧
      ((rxy < 0 ∧ ¬ rxy = 0 ∧ ¬ 0 < rxy) ∨ (¬ rxy < 0 ∧ rxy = 0 ∧ ¬ 0 < rxy) ∨
        (¬ rxy < 0 ∧ ¬ rxy = 0 ∧ 0 < rxy)) ∧
      (rxy = 0 → ryz = 0 → rxz = 0) ∧
      (rxy < 0 → ryz < 0 → rxz < 0) := by
  obtain ⟨rxy, h1, s1⟩ := compareFast_query x y jy hjy hxy lxy
  obtain ⟨ryz, h2, s2⟩ := compareFast_query y z jz hjz hyz lyz
  obtain ⟨rxz, h3, s3⟩ := compareFast_query x z jz hjz hxz lxz
  refine ⟨rxy, ryz, rxz, h1, h2, h3, by omega, ?_, ?_⟩
  · intro e1 e2
    rw [e1, Int.sign_zero] at s1
    rw [e2, Int.sign_zero] at s2
    have exy := (refCompare_eq_zero_iff x y).mp s1.symm
    have eyz := (refCompare_eq_zero_iff y z).mp s2.symm
    have : refCompare x z = 0 := (refCompare_eq_zero_iff x z).mpr (exy.trans eyz)
    rw [this] at s3
    exact Int.sign_eq_zero_iff_zero.mp s3
  · intro n1 n2
    rw [Int.sign_eq_neg_one_of_neg n1] at s1
    rw [Int.sign_eq_neg_one_of_neg n2] at s2
    have := refCompare_trans x y z s1.symm s2.symm
    rw [this] at s3
    exact Int.sign_eq_neg_one_iff_neg.mp s3

/-- The amended claim C3 at the keys `01`, `01 00` and `02`. -/
theorem compareFast_total_order_witness :
    ∃ rxy ryz rxz, compareFast Endian.little (query [1]) (stored [1, 0] [0, 0]) = some rxy ∧
      compareFast Endian.little (query [1, 0]) (stored [2] [0, 0, 0]) = some ryz ∧
      compareFast Endian.little (query [1]) (stored [2] [0, 0, 0]) = some rxz ∧
      ((rxy < 0 ∧ ¬ rxy = 0 ∧ ¬ 0 < rxy) ∨ (¬ rxy < 0 ∧ rxy = 0 ∧ ¬ 0 < rxy) ∨
        (¬ rxy < 0 ∧ ¬ rxy = 0 ∧ 0 < rxy)) ∧
      (rxy = 0 → ryz = 0 → rxz = 0) ∧
      (rxy < 0 → ryz < 0 → rxz < 0) :=
  compareFast_total_order [1] [1, 0] [2] [0, 0] [0, 0, 0] (by decide) (by decide) (by decide)
    (by decide) (by decide) (by decide) (by decide) (by decide)

/-- Claim C4 fails as stated. For the equal keys `01 02` and `01 02`, with
nothing readable behind the stored key, the tail step loads the whole word of
`b` at offset 0, two bytes of which lie behind the key: the call has no
result, while the byte comparison says "equal". On a big-endian host the
equal keys `07` and `07` (three zero bytes behind the stored key) return 1. -/
theorem compareFast_equal_length_fails :
    (compareFast Endian.little (query [1, 2]) (stored [1, 2] []) = none ∧
      refCompare [1, 2] [1, 2] = 0) ∧
    (compareFast Endian.big (query [7]) (stored [7] [0, 0, 0]) = some 1 ∧
      refCompare [7] [7] = 0) := by
  decide

/-- Claim C4, amended. On a little-endian host, for every pair of keys `x`, `y`
of equal length, `x` zero-padded to the next multiple of 4 as the query key
and `y` stored with the bytes that complete its last word readable, the call
returns a value whose sign is the sign of the unsigned lexicographic byte
comparison of `x` and `y`. -/
theorem compareFast_equal_length (x y junk : List Byte) (hlen : x.length = y.length)
    (hj : padLen y.length ≤ junk.length) :
    ∃ r, compareFast Endian.little (query x) (stored y junk) = some r ∧
      Int.sign r = Int.sign (refCompare x y) := by
  rw [sign_refCompare]
  refine compareFast_query x y junk hj ?_ (by omega)
  rintro ⟨h, _⟩
  have := le_roundUp4 x.length
  omega

/-- The amended claim C4 at the keys `03 09 04` and `03 08 C8`. -/
theorem compareFast_equal_length_witness :
    [(3 : Byte), 9, 4].length = [(3 : Byte), 8, 200].length ∧
    padLen [(3 : Byte), 8, 200].length ≤ [(255 : Byte)].length ∧
    ∃ r, compareFast Endian.little (query [3, 9, 4]) (stored [3, 8, 200] [255]) = some r ∧
      Int.sign r = Int.sign (refCompare [3, 9, 4] [3, 8, 200]) :=
  ⟨by decide, by decide, compareFast_equal_length [3, 9, 4] [3, 8, 200] [255] (by decide) (by decide)⟩


/-- Claim C5 fails as stated. The key `01 02` is the strict beginning of the
stored key `01 02 00 00 00 00`, but its padded buffer `01 02 00 00` ends
after 4 bytes, so the tail step loads a word behind it and the call has no
result. -/
theorem compareFast_beginning_fails :
    ([(1 : Byte), 2] <+: [1, 2, 0, 0, 0, 0] ∧
      [(1 : Byte), 2].length < [(1 : Byte), 2, 0, 0, 0, 0].length) ∧
    compareFast Endian.little (query [1, 2]) (stored [1, 2, 0, 0, 0, 0] [6, 7]) = none := by
  decide

/-- Claim C5, amended. On a little-endian host, for every key `x` that is the
strict beginning of a key `y`, unless `y` is longer than the padded buffer of
`x` and equal to it over its whole length, `compareFast(x, y) < 0`; and
`compare([01], [01 00])` returns exactly -1. -/
theorem compareFast_beginning :
    (∀ (x y junk : List Byte), x <+: y → x.length < y.length →
      padLen y.length ≤ junk.length →
      ¬ (roundUp4 x.length < y.length ∧ x ++ List.replicate (padLen x.length) 0 <+: y) →
      ∃ r, compareFast Endian.little (query x) (stored y junk) = some r ∧ r < 0) ∧
    (∀ (junk : List Byte), padLen 2 ≤ junk.length →
      compareFast Endian.little (query [1]) (stored [1, 0] junk) = some (-1)) := by
  constructor
  · intro x y junk hp hlt hj hin
    obtain ⟨r, hr, hs⟩ := compareFast_query x y junk hj hin (by omega)
    rw [refCompare_of_isPrefix x y hp hlt] at hs
    exact ⟨r, hr, Int.sign_eq_neg_one_iff_neg.mp hs⟩
  · intro junk hj
    have h := compareFast_words_equal (query [1]) (stored [1, 0] junk)
      (by
        simp only [stored, List.length_append, roundUp4] at hj ⊢
        exact Nat.add_le_add_left hj 2)
      (by
        show ([1, 0, 0, 0] : List Byte) <+: [1, 0, 0, 0]
        exact List.prefix_refl _)
    rw [h]
    show some (toInt (sizeSub 1 2)) = some (-1)
    decide

/-- The amended claim C5 at the keys `01 02` and `01 02 00 09`, and its
concrete vector with the bytes `05 06` behind the stored key. -/
theorem compareFast_beginning_witness :
    ([(1 : Byte), 2] <+: [1, 2, 0, 9] ∧ [(1 : Byte), 2].length < [(1 : Byte), 2, 0, 9].length ∧
      padLen [(1 : Byte), 2, 0, 9].length ≤ ([] : List Byte).length ∧
      ¬ (roundUp4 [(1 : Byte), 2].length < [(1 : Byte), 2, 0, 9].length ∧
        [(1 : Byte), 2] ++ List.replicate (padLen [(1 : Byte), 2].length) 0 <+: [1, 2, 0, 9]) ∧
      ∃ r, compareFast Endian.little (query [1, 2]) (stored [1, 2, 0, 9] []) = some r ∧ r < 0) ∧
    (padLen 2 ≤ [(5 : Byte), 6].length ∧
      compareFast Endian.little (query [1]) (stored [1, 0] [5, 6]) = some (-1)) :=
  ⟨⟨by decide, by decide, by decide, by decide,
      compareFast_beginning.1 [1, 2] [1, 2, 0, 9] [] (by decide) (by decide) (by decide)
        (by decide)⟩,
    by decide, compareFast_beginning.2 [5, 6] (by decide)⟩

/-- Claim C6 fails as stated. The empty query key with the padding of the
contract (none) against the stored key `01`: the tail step loads a word from
an empty buffer and the call has no result; with one word of zero bytes the
same happens against the stored key `00 00 00 00 09`. With 2^32 zero bytes of
padding against a stored key of 2^32 zero bytes the call returns 0, not a
negative value. -/
theorem compareFast_empty_query_fails :
    compareFast Endian.little (query []) (stored [1] [0, 0, 0]) = none ∧
    compareFast Endian.little (queryWith 4 []) (stored [0, 0, 0, 0, 9] [0, 0, 0]) = none ∧
    compareFast Endian.little (queryWith (2 ^ 32) []) (stored (List.replicate (2 ^ 32) 0) []) =
      some 0 := by
  refine ⟨by decide, by decide, ?_⟩
  have h := compareFast_zeros_with 0 (2 ^ 32) (2 ^ 32) [] (by decide) (by decide)
  rw [show toInt (sizeSub 0 (2 ^ 32)) = 0 by decide] at h
  exact h

/-- Claim C6, amended. `compareFast(empty, empty) = 0`. For every non-empty
stored key `y`, the call with the empty query key that carries no padding
reads out of bounds on any host; when the buffer of the empty query key holds
zero bytes up to the next multiple of 4 of the length of `y` (or more) and `y`
has at most 2^31 bytes, `compareFast(empty, y) < 0` on a little-endian host. -/
theorem compareFast_empty_query :
    (∀ (junk : List Byte), compareFast Endian.little (query []) (stored [] junk) = some 0) ∧
    (∀ (host : Endian) (y junk : List Byte), y ≠ [] →
      compareFast host (query []) (stored y junk) = none) ∧
    (∀ (y junk : List Byte) (k : Nat), y ≠ [] → padLen y.length ≤ junk.length →
      roundUp4 y.length ≤ k → y.length ≤ 2 ^ 31 →
      ∃ r, compareFast Endian.little (queryWith k []) (stored y junk) = some r ∧ r < 0) := by
  refine ⟨?_, ?_, ?_⟩
  · intro junk
    rw [compareFast_stored_nil]
    decide
  · intro host y junk hy
    exact loop_nil host (query []) (stored y junk) (y ++ junk) y.length
      (by simpa using hy)
  · intro y junk k hy hj hk hlen
    obtain ⟨r, hr, hs⟩ := compareFast_queryWith [] y junk k (by simpa using hk) hj
      (by simpa using hlen) (by
        simp only [List.length_nil]
        positivity)
    rw [refCompare_nil_left y hy] at hs
    exact ⟨r, hr, Int.sign_eq_neg_one_iff_neg.mp hs⟩

/-- The amended claim C6 at the stored key `00 00`. -/
theorem compareFast_empty_query_witness :
    compareFast Endian.little (query []) (stored [] [4, 4]) = some 0 ∧
    ([(0 : Byte), 0] ≠ [] ∧ compareFast Endian.little (query []) (stored [0, 0] [1, 2]) = none) ∧
    ([(0 : Byte), 0] ≠ [] ∧ padLen [(0 : Byte), 0].length ≤ [(1 : Byte), 2].length ∧
      roundUp4 [(0 : Byte), 0].length ≤ 4 ∧ [(0 : Byte), 0].length ≤ 2 ^ 31 ∧
      ∃ r, compareFast Endian.little (queryWith 4 []) (stored [0, 0] [1, 2]) = some r ∧ r < 0) :=
  ⟨compareFast_empty_query.1 [4, 4],
    ⟨by decide, compareFast_empty_query.2.1 Endian.little [0, 0] [1, 2] (by decide)⟩,
    by decide, by decide, by decide, by decide,
    compareFast_empty_query.2.2 [0, 0] [1, 2] 4 (by decide) (by decide) (by decide) (by decide)⟩


/-- Claim C7 fails as stated. The keys `01` and `01 00 00 00 00` differ only in
trailing zero bytes, but the shorter one as the query key does not compare
less: the call reads behind its padded buffer and has no result. A key of
2^32 zero bytes compares equal (0) to the empty stored key. -/
theorem compareFast_eq_zero_iff_fails :
    compareFast Endian.little (query [1]) (stored [1, 0, 0, 0, 0] [0, 0, 0]) = none ∧
    (compareFast Endian.little (query (List.replicate (2 ^ 32) 0)) (stored [] []) = some 0 ∧
      List.replicate (2 ^ 32) (0 : Byte) ≠ []) := by
  refine ⟨by decide, ?_, replicate_ne_nil _ (by norm_num)⟩
  rw [compareFast_stored_nil, query_zeros_size]
  decide

/-- Claim C7, amended. On a little-endian host: for a query key `x` less than
2^32 bytes longer than the stored key `y`, `compareFast(x, y) = 0` exactly
when `x` and `y` have the same length and the same bytes; a key compares less
than the same key followed by zero bytes that fit its own padding, and the
longer one compares greater than the shorter one (fewer than 2^31 zero bytes);
`compare([AB CD], [AB CD]) = 0`. -/
theorem compareFast_eq_zero_iff :
    (∀ (x y junk : List Byte), padLen y.length ≤ junk.length → x.length < y.length + 2 ^ 32 →
      (compareFast Endian.little (query x) (stored y junk) = some 0 ↔ x = y)) ∧
    (∀ (x junk : List Byte) (n : Nat), 0 < n → n ≤ padLen x.length →
      padLen (x ++ List.replicate n 0).length ≤ junk.length →
      ∃ r, compareFast Endian.little (query x) (stored (x ++ List.replicate n 0) junk) = some r ∧
        r < 0) ∧
    (∀ (x junk : List Byte) (n : Nat), 0 < n → n < 2 ^ 31 → padLen x.length ≤ junk.length →
      ∃ r, compareFast Endian.little (query (x ++ List.replicate n 0)) (stored x junk) = some r ∧
        0 < r) ∧
    (∀ (junk : List Byte), padLen 2 ≤ junk.length →
      compareFast Endian.little (query [0xAB, 0xCD]) (stored [0xAB, 0xCD] junk) = some 0) := by
  refine ⟨?_, ?_, ?_, ?_⟩
  · intro x y junk hj hlen
    constructor
    · intro h
      rcases compareFast_some_cases x y junk (padLen x.length) 0 (roundUp4_mod x.length) hj h
        with hs | ⟨hr, hp⟩
      · rw [Int.sign_zero] at hs
        exact (refCompare_eq_zero_iff x y).mp hs.symm
      · have hle := hp.length_le
        simp only [List.length_append, List.length_replicate] at hle
        have hpx : padLen x.length ≤ 3 := by
          unfold padLen
          omega
        have hxy : x.length = y.length :=
          toInt_sizeSub_eq_zero x.length y.length hr.symm (by omega) hlen
        have heq := hp.eq_of_length (by
          simp only [List.length_append, List.length_replicate, hxy])
        exact (List.append_inj_left heq hxy.symm).symm
    · rintro rfl
      obtain ⟨r, hr, hs⟩ := compareFast_query x x junk hj (by
        rintro ⟨h, _⟩
        have := le_roundUp4 x.length
        omega) (by
        have : (0 : Nat) < 2 ^ 31 := by positivity
        omega)
      rw [(refCompare_eq_zero_iff x x).mpr rfl] at hs
      rw [hr, Int.sign_eq_zero_iff_zero.mp hs]
  · intro x junk n hn hpad hj
    have hlt : x.length < (x ++ List.replicate n (0 : Byte)).length := by
      simp only [List.length_append, List.length_replicate]
      omega
    obtain ⟨r, hr, hs⟩ := compareFast_query x (x ++ List.replicate n 0) junk hj (by
      rintro ⟨h, _⟩
      simp only [List.length_append, List.length_replicate, roundUp4] at h
      omega) (by omega)
    rw [refCompare_of_isPrefix x _ (List.prefix_append x _) hlt] at hs
    exact ⟨r, hr, Int.sign_eq_neg_one_iff_neg.mp hs⟩
  · intro x junk n hn hn31 hj
    have hlt : x.length < (x ++ List.replicate n (0 : Byte)).length := by
      simp only [List.length_append, List.length_replicate]
      omega
    obtain ⟨r, hr, hs⟩ := compareFast_query (x ++ List.replicate n 0) x junk hj (by
      rintro ⟨h, _⟩
      have := le_roundUp4 (x ++ List.replicate n (0 : Byte)).length
      omega) (by
      simp only [List.length_append, List.length_replicate]
      omega)
    rw [refCompare_swap x, refCompare_of_isPrefix x _ (List.prefix_append x _) hlt] at hs
    exact ⟨r, hr, Int.sign_eq_one_iff_pos.mp hs⟩
  · intro junk hj
    have h := compareFast_words_equal (query [0xAB, 0xCD]) (stored [0xAB, 0xCD] junk)
      (by
        simp only [stored, List.length_append, roundUp4] at hj ⊢
        exact Nat.add_le_add_left hj 2)
      (by
        show ([0xAB, 0xCD, 0, 0] : List Byte) <+: [0xAB, 0xCD, 0, 0]
        exact List.prefix_refl _)
    rw [h]
    show some (toInt (sizeSub 2 2)) = some 0
    decide

/-- The amended claim C7 at the key `01 02` against itself, at the key `07`
against `07 00 00` and against itself followed by five zero bytes, and its
concrete vector with the bytes `01 01` behind the stored key. -/
theorem compareFast_eq_zero_iff_witness :
    (compareFast Endian.little (query [1, 2]) (stored [1, 2] [0, 0]) = some 0 ↔
      [(1 : Byte), 2] = [1, 2]) ∧
    (∃ r, compareFast Endian.little (query [7]) (stored ([7] ++ List.replicate 2 0) [0]) =
      some r ∧ r < 0) ∧
    (∃ r, compareFast Endian.little (query ([7] ++ List.replicate 5 0)) (stored [7] [0, 0, 0]) =
      some r ∧ 0 < r) ∧
    compareFast Endian.little (query [0xAB, 0xCD]) (stored [0xAB, 0xCD] [1, 1]) = some 0 :=
  ⟨compareFast_eq_zero_iff.1 [1, 2] [1, 2] [0, 0] (by decide) (by decide),
    compareFast_eq_zero_iff.2.1 [7] [0] 2 (by decide) (by decide) (by decide),
    compareFast_eq_zero_iff.2.2.1 [7] [0, 0, 0] 5 (by decide) (by decide) (by decide),
    compareFast_eq_zero_iff.2.2.2 [1, 1] (by decide)⟩

/-- Claim C8 fails as stated. A query key of 2^31 + 8 zero bytes against the
stored key of 8 zero bytes: every compared word pair is equal and `a` is the
longer key, yet the returned `int` is `INT_MIN`, a negative value. -/
theorem compareFast_size_difference_fails :
    compareFast Endian.little (query (List.replicate (2 ^ 31 + 8) 0))
        (stored [0, 0, 0, 0, 0, 0, 0, 0] []) = some (-2147483648) ∧
    (stored [0, 0, 0, 0, 0, 0, 0, 0] []).mv_size <
      (query (List.replicate (2 ^ 31 + 8) 0)).mv_size := by
  constructor
  · have h := compareFast_zeros (2 ^ 31 + 8) 8 [] (by decide) (by decide)
    rw [show toInt (sizeSub (2 ^ 31 + 8) 8) = -2147483648 by decide] at h
    exact h
  · rw [query_zeros_size]
    decide

/-- Claim C8, amended. On a little-endian host, whenever every compared word
pair is equal (the bytes of `b`, zero-extended to the word boundary, begin the
memory of `a`), the returned `int` is the low 32 bits of the `size_t`
difference `len(a) - len(b)` read as two's complement; it is the signed
difference `len(a) - len(b)` whenever that difference lies between -2^31 and
2^31 - 1. -/
theorem compareFast_size_difference (a b : MDB_val)
    (hb : roundUp4 b.mv_size ≤ b.mv_data.length)
    (hp : b.mv_data.take b.mv_size ++ List.replicate (padLen b.mv_size) 0 <+: a.mv_data) :
    compareFast Endian.little a b = some (toInt (sizeSub a.mv_size b.mv_size)) ∧
    (b.mv_size ≤ a.mv_size + 2 ^ 31 → a.mv_size < b.mv_size + 2 ^ 31 →
      compareFast Endian.little a b = some ((a.mv_size : Int) - (b.mv_size : Int))) := by
  have h := compareFast_words_equal a b hb hp
  refine ⟨h, fun hlo hhi => ?_⟩
  rw [h, toInt_sizeSub]
  · norm_num at hlo ⊢
    omega
  · norm_num at hhi ⊢
    omega

/-- The amended claim C8 at the query key `01 02 03 04 05 00 00` and the stored
key `01 02 03 04 05`: the call returns 7 - 5 = 2. -/
theorem compareFast_size_difference_witness :
    roundUp4 (stored [1, 2, 3, 4, 5] [9, 9, 9]).mv_size ≤
      (stored [1, 2, 3, 4, 5] [9, 9, 9]).mv_data.length ∧
    (stored [1, 2, 3, 4, 5] [9, 9, 9]).mv_data.take (stored [1, 2, 3, 4, 5] [9, 9, 9]).mv_size ++
      List.replicate (padLen (stored [1, 2, 3, 4, 5] [9, 9, 9]).mv_size) 0 <+:
        (query [1, 2, 3, 4, 5, 0, 0]).mv_data ∧
    compareFast Endian.little (query [1, 2, 3, 4, 5, 0, 0]) (stored [1, 2, 3, 4, 5] [9, 9, 9]) =
      some 2 :=
  ⟨by decide, by decide,
    (compareFast_size_difference (query [1, 2, 3, 4, 5, 0, 0]) (stored [1, 2, 3, 4, 5] [9, 9, 9])
      (by decide) (by decide)).2 (by decide) (by decide)⟩


/-- Claim C9 fails as stated. The query key `09 09 09` is padded to
`09 09 09 00`; the stored key `09 09 09 00 01` makes the tail step load the
word at offset 4 of `a`, behind its buffer, on either host. Likewise for the
query key `09 09 09 09` followed by a whole word of zero bytes against the
stored key `09 09 09 09 00 00 00 00 01`. -/
theorem compareFast_in_bounds_fails :
    compareFast Endian.little (query [9, 9, 9]) (stored [9, 9, 9, 0, 1] [0, 0, 0]) = none ∧
    compareFast Endian.big (query [9, 9, 9]) (stored [9, 9, 9, 0, 1] [0, 0, 0]) = none ∧
    compareFast Endian.little (queryWith 4 [9, 9, 9, 9])
      (stored [9, 9, 9, 9, 0, 0, 0, 0, 1] [0, 0, 0]) = none := by
  decide

/-- Claim C9, amended. Under the padding precondition (and with the bytes that
complete the last word of `b` readable), on either host, a call reads outside
the padded buffer of `a` exactly when the stored key `b` is longer than that
buffer and equal to it over its whole length; for every other `b` all reads
are in bounds and the call returns. -/
theorem compareFast_in_bounds_iff (host : Endian) (a b junk : List Byte)
    (hj : padLen b.length ≤ junk.length) :
    compareFast host (query a) (stored b junk) = none ↔
      roundUp4 a.length < b.length ∧ a ++ List.replicate (padLen a.length) 0 <+: b :=
  compareFast_none_iff host a b junk (padLen a.length) (roundUp4_mod a.length) hj

/-- The amended claim C9 at the query key `01 02 03` and the stored key
`01 02 03 04 05 06`. -/
theorem compareFast_in_bounds_iff_witness :
    padLen [(1 : Byte), 2, 3, 4, 5, 6].length ≤ [(0 : Byte), 0].length ∧
    (compareFast Endian.little (query [1, 2, 3]) (stored [1, 2, 3, 4, 5, 6] [0, 0]) = none ↔
      roundUp4 [(1 : Byte), 2, 3].length < [(1 : Byte), 2, 3, 4, 5, 6].length ∧
        [(1 : Byte), 2, 3] ++ List.replicate (padLen [(1 : Byte), 2, 3].length) 0 <+:
          [1, 2, 3, 4, 5, 6]) :=
  ⟨by decide, compareFast_in_bounds_iff Endian.little [1, 2, 3] [1, 2, 3, 4, 5, 6] [0, 0]
    (by decide)⟩


/-- Claim C10 fails as stated. With the declared length 3, the stored buffers
`00 00 00` and `00 00 00 05` agree on their first 3 bytes, but against the
query key `00 00 00` the first gives no result (the tail step loads a whole
word, one byte behind the end of the buffer) and the second gives 0. On a
big-endian host the buffers `00 00 00 00` and `00 00 00 05` give 0 and -1:
there the mask keeps the byte behind the key. -/
theorem compareFast_ignores_bytes_past_size_fails :
    ([(0 : Byte), 0, 0].take 3 = [(0 : Byte), 0, 0, 5].take 3 ∧
      compareFast Endian.little (query [0, 0, 0]) { mv_size := 3, mv_data := [0, 0, 0] } = none ∧
      compareFast Endian.little (query [0, 0, 0]) { mv_size := 3, mv_data := [0, 0, 0, 5] } =
        some 0) ∧
    ([(0 : Byte), 0, 0, 0].take 3 = [(0 : Byte), 0, 0, 5].take 3 ∧
      compareFast Endian.big (query [0, 0, 0]) { mv_size := 3, mv_data := [0, 0, 0, 0] } =
        some 0 ∧
      compareFast Endian.big (query [0, 0, 0]) { mv_size := 3, mv_data := [0, 0, 0, 5] } =
        some (-1)) := by
  decide

/-- Claim C10, amended. On a little-endian host, for every query key `a` and
every two stored buffers with the same declared length `n` that agree on their
first `n` bytes and are both readable, or both not readable, up to the end of
the word that holds byte `n - 1`, `compareFast` returns the same value. -/
theorem compareFast_ignores_bytes_past_size (a : MDB_val) (n : Nat) (buf1 buf2 : List Byte)
    (hagree : buf1.take n = buf2.take n)
    (hread : roundUp4 n ≤ buf1.length ↔ roundUp4 n ≤ buf2.length) :
    compareFast Endian.little a { mv_size := n, mv_data := buf1 } =
      compareFast Endian.little a { mv_size := n, mv_data := buf2 } :=
  loop_congr a { mv_size := n, mv_data := buf1 } { mv_size := n, mv_data := buf2 } rfl n
    a.mv_data buf1 buf2 hagree hread

/-- The amended claim C10 at two buffers that hold the key `01 02 03 04 05 06`
followed by different bytes. -/
theorem compareFast_ignores_bytes_past_size_witness :
    [(1 : Byte), 2, 3, 4, 5, 6, 7, 8].take 6 = [(1 : Byte), 2, 3, 4, 5, 6, 200, 100, 50].take 6 ∧
    (roundUp4 6 ≤ [(1 : Byte), 2, 3, 4, 5, 6, 7, 8].length ↔
      roundUp4 6 ≤ [(1 : Byte), 2, 3, 4, 5, 6, 200, 100, 50].length) ∧
    compareFast Endian.little (query [1, 2, 3, 4, 5, 6])
        { mv_size := 6, mv_data := [1, 2, 3, 4, 5, 6, 7, 8] } =
      compareFast Endian.little (query [1, 2, 3, 4, 5, 6])
        { mv_size := 6, mv_data := [1, 2, 3, 4, 5, 6, 200, 100, 50] } :=
  ⟨by decide, by decide,
    compareFast_ignores_bytes_past_size (query [1, 2, 3, 4, 5, 6]) 6 [1, 2, 3, 4, 5, 6, 7, 8]
      [1, 2, 3, 4, 5, 6, 200, 100, 50] (by decide) (by decide)⟩

/-! ## Loads and comparisons of a call -/

theorem traceLoop_step (host : Endian) (a b : MDB_val) (dataA dataB : List Byte) (off n : Nat) :
    compareFast.traceLoop host a b dataA dataB off (n + 4) =
      match wordAt host dataA with
      | none => { result := none, loadsB := [], loopCompares := 0, tailCompares := 0 }
      | some aVal =>
        match wordAt host dataB with
        | none => { result := none, loadsB := [off], loopCompares := 0, tailCompares := 0 }
        | some bVal =>
          if aVal > bVal then
            { result := some 1, loadsB := [off], loopCompares := 1, tailCompares := 0 }
          else if aVal < bVal then
            { result := some (-1), loadsB := [off], loopCompares := 1, tailCompares := 0 }
          else
            { result := (compareFast.traceLoop host a b (dataA.drop 4) (dataB.drop 4) (off + 4)
                n).result,
              loadsB := off :: (compareFast.traceLoop host a b (dataA.drop 4) (dataB.drop 4)
                (off + 4) n).loadsB,
              loopCompares := (compareFast.traceLoop host a b (dataA.drop 4) (dataB.drop 4)
                (off + 4) n).loopCompares + 1,
              tailCompares := (compareFast.traceLoop host a b (dataA.drop 4) (dataB.drop 4)
                (off + 4) n).tailCompares } := by
  rw [compareFast.traceLoop]

theorem traceLoop_zero (host : Endian) (a b : MDB_val) (dataA dataB : List Byte) (off : Nat) :
    compareFast.traceLoop host a b dataA dataB off 0 =
      { result := some (toInt (sizeSub a.mv_size b.mv_size)), loadsB := [], loopCompares := 0,
        tailCompares := 0 } := by
  simp [compareFast.traceLoop]

theorem traceLoop_tail (host : Endian) (a b : MDB_val) (dataA dataB : List Byte) (off n : Nat)
    (h0 : n ≠ 0) (h4 : n < 4) :
    compareFast.traceLoop host a b dataA dataB off n =
      match wordAt host dataA with
      | none => { result := none, loadsB := [], loopCompares := 0, tailCompares := 0 }
      | some aVal =>
        match tailWordB host dataB n with
        | none => { result := none, loadsB := [off], loopCompares := 0, tailCompares := 0 }
        | some bVal =>
          { result :=
              if aVal > bVal then some 1
              else if aVal < bVal then some (-1)
              else some (toInt (sizeSub a.mv_size b.mv_size)),
            loadsB := [off], loopCompares := 0, tailCompares := 1 } := by
  match n, h0, h4 with
  | 1, _, _ => simp [compareFast.traceLoop]
  | 2, _, _ => simp [compareFast.traceLoop]
  | 3, _, _ => simp [compareFast.traceLoop]
  | 0, h0, _ => exact absurd rfl h0
  | n + 4, _, h4 => omega

/-- The recorded run returns what the comparator returns. -/
theorem traceLoop_result (host : Endian) (a b : MDB_val) :
    ∀ (n : Nat) (dataA dataB : List Byte) (off : Nat),
      (compareFast.traceLoop host a b dataA dataB off n).result =
        compareFast.loop host a b dataA dataB n
  | 0, dataA, dataB, off => by rw [traceLoop_zero, loop_zero]
  | 1, dataA, dataB, off => by
    rw [traceLoop_tail _ _ _ _ _ _ 1 (by decide) (by decide),
      loop_tail _ _ _ _ _ 1 (by decide) (by decide)]
    cases wordAt host dataA <;> cases tailWordB host dataB 1 <;> rfl
  | 2, dataA, dataB, off => by
    rw [traceLoop_tail _ _ _ _ _ _ 2 (by decide) (by decide),
      loop_tail _ _ _ _ _ 2 (by decide) (by decide)]
    cases wordAt host dataA <;> cases tailWordB host dataB 2 <;> rfl
  | 3, dataA, dataB, off => by
    rw [traceLoop_tail _ _ _ _ _ _ 3 (by decide) (by decide),
      loop_tail _ _ _ _ _ 3 (by decide) (by decide)]
    cases wordAt host dataA <;> cases tailWordB host dataB 3 <;> rfl
  | n + 4, dataA, dataB, off => by
    have ih := traceLoop_result host a b n (dataA.drop 4) (dataB.drop 4) (off + 4)
    rw [traceLoop_step, loop_step]
    cases wordAt host dataA with
    | none => rfl
    | some aVal =>
      cases wordAt host dataB with
      | none => rfl
      | some bVal =>
        simp only []
        split_ifs
        · rfl
        · rfl
        · exact ih

theorem trace_result (host : Endian) (a b : MDB_val) :
    (compareFast.trace host a b).result = compareFast host a b :=
  traceLoop_result host a b b.mv_size a.mv_data b.mv_data 0

/-- Counts and loads of a run on `remaining = n` bytes starting at offset
`off`: at most `n / 4` comparisons in the loop, at most one in the tail step
and only when `n` is not a multiple of 4; every load of `b` lies inside the
`n` bytes, except the load of the tail step at offset `off + 4 * (n / 4)`. -/
theorem traceLoop_bounds (host : Endian) (a b : MDB_val) :
    ∀ (n : Nat) (dataA dataB : List Byte) (off : Nat),
      (compareFast.traceLoop host a b dataA dataB off n).loopCompares ≤ n / 4 ∧
      (compareFast.traceLoop host a b dataA dataB off n).tailCompares ≤ 1 ∧
      ((compareFast.traceLoop host a b dataA dataB off n).tailCompares = 1 → n % 4 ≠ 0) ∧
      ∀ o ∈ (compareFast.traceLoop host a b dataA dataB off n).loadsB,
        o + 4 ≤ off + n ∨ (o = off + 4 * (n / 4) ∧ n % 4 ≠ 0)
  | 0, dataA, dataB, off => by
    rw [traceLoop_zero]
    simp
  | 1, dataA, dataB, off => by
    rw [traceLoop_tail _ _ _ _ _ _ 1 (by decide) (by decide)]
    cases wordAt host dataA <;> cases tailWordB host dataB 1 <;> simp
  | 2, dataA, dataB, off => by
    rw [traceLoop_tail _ _ _ _ _ _ 2 (by decide) (by decide)]
    cases wordAt host dataA <;> cases tailWordB host dataB 2 <;> simp
  | 3, dataA, dataB, off => by
    rw [traceLoop_tail _ _ _ _ _ _ 3 (by decide) (by decide)]
    cases wordAt host dataA <;> cases tailWordB host dataB 3 <;> simp
  | n + 4, dataA, dataB, off => by
    obtain ⟨h1, h2, h3, h4⟩ := traceLoop_bounds host a b n (dataA.drop 4) (dataB.drop 4) (off + 4)
    rw [traceLoop_step]
    have hdiv : (n + 4) / 4 = n / 4 + 1 := by omega
    have hmod : (n + 4) % 4 = n % 4 := by omega
    cases wordAt host dataA with
    | none => simp
    | some aVal =>
      cases wordAt host dataB with
      | none => simp
      | some bVal =>
        simp only []
        split_ifs
        · simp
        · simp
        · refine ⟨by simp only []; omega, h2, fun h => by rw [hmod]; exact h3 h, ?_⟩
          intro o ho
          simp only [List.mem_cons] at ho
          rcases ho with rfl | ho
          · left; omega
          · rcases h4 o ho with h | ⟨h, hm⟩
            · left; omega
            · right
              exact ⟨by rw [hdiv]; omega, by rw [hmod]; exact hm⟩

/-- The declared size of `a` plays no part in what is loaded or compared. -/
theorem traceLoop_size_a (host : Endian) (a a2 b : MDB_val) :
    ∀ (n : Nat) (dataA dataB : List Byte) (off : Nat),
      (compareFast.traceLoop host a b dataA dataB off n).loadsB =
          (compareFast.traceLoop host a2 b dataA dataB off n).loadsB ∧
        (compareFast.traceLoop host a b dataA dataB off n).loopCompares =
          (compareFast.traceLoop host a2 b dataA dataB off n).loopCompares ∧
        (compareFast.traceLoop host a b dataA dataB off n).tailCompares =
          (compareFast.traceLoop host a2 b dataA dataB off n).tailCompares
  | 0, dataA, dataB, off => by
    rw [traceLoop_zero, traceLoop_zero]
    simp
  | 1, dataA, dataB, off => by
    rw [traceLoop_tail _ _ _ _ _ _ 1 (by decide) (by decide),
      traceLoop_tail _ _ _ _ _ _ 1 (by decide) (by decide)]
    cases wordAt host dataA <;> cases tailWordB host dataB 1 <;> simp
  | 2, dataA, dataB, off => by
    rw [traceLoop_tail _ _ _ _ _ _ 2 (by decide) (by decide),
      traceLoop_tail _ _ _ _ _ _ 2 (by decide) (by decide)]
    cases wordAt host dataA <;> cases tailWordB host dataB 2 <;> simp
  | 3, dataA, dataB, off => by
    rw [traceLoop_tail _ _ _ _ _ _ 3 (by decide) (by decide),
      traceLoop_tail _ _ _ _ _ _ 3 (by decide) (by decide)]
    cases wordAt host dataA <;> cases tailWordB host dataB 3 <;> simp
  | n + 4, dataA, dataB, off => by
    obtain ⟨h1, h2, h3⟩ := traceLoop_size_a host a a2 b n (dataA.drop 4) (dataB.drop 4) (off + 4)
    rw [traceLoop_step, traceLoop_step]
    cases wordAt host dataA with
    | none => simp
    | some aVal =>
      cases wordAt host dataB with
      | none => simp
      | some bVal =>
        simp only []
        split_ifs
        · simp
        · simp
        · exact ⟨by rw [h1], by rw [h2], h3⟩

theorem roundUp4_eq (n : Nat) (h : n % 4 ≠ 0) : roundUp4 n = 4 * (n / 4) + 4 := by
  unfold roundUp4 padLen
  omega

/-! ## Words that differ, and the two hosts -/

/-- The loop runs through a common beginning of whole words without returning. -/
theorem loop_common (host : Endian) (a b : MDB_val) :
    ∀ (pre dataA dataB : List Byte) (n : Nat), pre.length % 4 = 0 →
      compareFast.loop host a b (pre ++ dataA) (pre ++ dataB) (pre.length + n) =
        compareFast.loop host a b dataA dataB n
  | [], dataA, dataB, n, _ => by simp
  | [_], _, _, _, h => by simp at h
  | [_, _], _, _, _, h => by simp at h
  | [_, _, _], _, _, _, h => by simp at h
  | p0 :: p1 :: p2 :: p3 :: pre, dataA, dataB, n, h => by
    have hp : pre.length % 4 = 0 := by
      simp only [List.length_cons] at h
      omega
    have ih := loop_common host a b pre dataA dataB n hp
    have hlen : (p0 :: p1 :: p2 :: p3 :: pre).length + n = (pre.length + n) + 4 := by
      simp only [List.length_cons]
      omega
    rw [hlen, loop_step]
    simp only [List.cons_append, wordAt_cons4, List.drop_succ_cons, List.drop_zero, gt_iff_lt,
      lt_irrefl, if_false]
    exact ih

/-- The unsigned big-endian word formed from the first `r` of four bytes
followed by zero bytes (`r` = 1, 2 or 3). -/
theorem tailWordB_little (r : Nat) (h0 : r ≠ 0) (h4 : r < 4) (y0 y1 y2 y3 : Byte)
    (rest : List Byte) :
    tailWordB Endian.little (y0 :: y1 :: y2 :: y3 :: rest) r =
      some (be32 y0 (if 2 ≤ r then y1 else 0) (if 3 ≤ r then y2 else 0) 0) := by
  match r, h0, h4 with
  | 1, _, _ => exact tailWordB_little_one y0 y1 y2 y3 rest
  | 2, _, _ => exact tailWordB_little_two y0 y1 y2 y3 rest
  | 3, _, _ => exact tailWordB_little_three y0 y1 y2 y3 rest
  | 0, h0, _ => exact absurd rfl h0
  | n + 4, _, h4 => omega

/-- After a common beginning of whole words, the masked comparison of the tail
step decides the result when the two words differ (little-endian host). -/
theorem compareFast_tail_differs (lenA r : Nat) (pre ra rb : List Byte)
    (x0 x1 x2 x3 y0 y1 y2 y3 : Byte) (hpre : pre.length % 4 = 0) (h0 : r ≠ 0) (h4 : r < 4) :
    compareFast Endian.little { mv_size := lenA, mv_data := pre ++ x0 :: x1 :: x2 :: x3 :: ra }
        { mv_size := pre.length + r, mv_data := pre ++ y0 :: y1 :: y2 :: y3 :: rb } =
      if be32 x0 x1 x2 x3 > be32 y0 (if 2 ≤ r then y1 else 0) (if 3 ≤ r then y2 else 0) 0 then
        some 1
      else if be32 x0 x1 x2 x3 < be32 y0 (if 2 ≤ r then y1 else 0) (if 3 ≤ r then y2 else 0) 0 then
        some (-1)
      else some (toInt (sizeSub lenA (pre.length + r))) := by
  unfold compareFast
  simp only []
  rw [loop_common Endian.little _ _ pre _ _ _ hpre, loop_tail _ _ _ _ _ r h0 h4, wordAt_little,
    tailWordB_little r h0 h4]

theorem wordAt_host (p : List Byte) : wordAt Endian.big p = wordAt Endian.little p := by
  by_cases h : 4 ≤ p.length
  · obtain ⟨x0, x1, x2, x3, r, rfl⟩ := exists_cons4 p h
    rw [wordAt_cons4, wordAt_cons4]
  · rw [wordAt_short _ p (by omega), wordAt_short _ p (by omega)]

/-- The loop proper does not depend on the host: for a stored length that is
a multiple of 4 both hosts return the same. -/
theorem loop_host (a b : MDB_val) :
    ∀ (n : Nat) (dataA dataB : List Byte), n % 4 = 0 →
      compareFast.loop Endian.big a b dataA dataB n =
        compareFast.loop Endian.little a b dataA dataB n
  | 0, dataA, dataB, _ => by rw [loop_zero, loop_zero]
  | 1, _, _, h => by omega
  | 2, _, _, h => by omega
  | 3, _, _, h => by omega
  | n + 4, dataA, dataB, h => by
    have ih := loop_host a b n (dataA.drop 4) (dataB.drop 4) (by omega)
    rw [loop_step, loop_step, wordAt_host, wordAt_host, ih]

theorem tailWordB_big (y0 y1 y2 y3 : Byte) (rest : List Byte) :
    tailWordB Endian.big (y0 :: y1 :: y2 :: y3 :: rest) 1 = some (be32 0 0 0 y3) ∧
    tailWordB Endian.big (y0 :: y1 :: y2 :: y3 :: rest) 2 = some (be32 0 0 y2 y3) ∧
    tailWordB Endian.big (y0 :: y1 :: y2 :: y3 :: rest) 3 = some (be32 0 y1 y2 y3) := by
  have h0 := y0.isLt
  have h1 := y1.isLt
  have h2 := y2.isLt
  have h3 := y3.isLt
  refine ⟨?_, ?_, ?_⟩
  · simp only [tailWordB, load32, ntohl, be32, tailMask, Option.map_some']
    norm_num [and_mask8]
    omega
  · simp only [tailWordB, load32, ntohl, be32, tailMask, Option.map_some']
    norm_num [and_mask16]
    omega
  · simp only [tailWordB, load32, ntohl, be32, tailMask, Option.map_some']
    norm_num [and_mask24]
    omega

/-- For a stored length that is a multiple of 4 the two hosts return the
same. -/
theorem compareFast_host_of_multiple_of_four (a b : MDB_val) (h : b.mv_size % 4 = 0) :
    compareFast Endian.big a b = compareFast Endian.little a b :=
  loop_host a b b.mv_size a.mv_data b.mv_data h

/-! ## The claims on loads, words, hosts and padding -/

/-- Claim C11 fails as stated. For the stored key `01 02` the tail step loads
the word at offset 0 of `b`, that is the bytes at the indices 0, 1, 2, 3, of
which 2 and 3 lie at or beyond the declared length 2; when nothing is readable
behind the key that load is out of bounds. -/
theorem compareFast_loads_of_b_fails :
    (compareFast.trace Endian.little (query [1, 2]) (stored [1, 2] [7, 7])).bytesB =
      [0, 1, 2, 3] ∧
    (stored [1, 2] [7, 7]).mv_size = 2 ∧
    compareFast Endian.little (query [1, 2]) (stored [1, 2] []) = none := by
  decide

/-- Claim C11, amended. On either host, for every `a` and `b`: every load of
`b` made inside the loop covers only byte indices below `len(b)`; the only
load that reaches further is the one of the tail step, made when `len(b)` is
not a multiple of 4, at offset `4 * (len(b) / 4)`; and every byte index of `b`
that the function loads is below `len(b)` rounded up to a multiple of 4. -/
theorem compareFast_loads_of_b (host : Endian) (a b : MDB_val) :
    (∀ off ∈ (compareFast.trace host a b).loadsB,
      off + 4 ≤ b.mv_size ∨ (off = 4 * (b.mv_size / 4) ∧ b.mv_size % 4 ≠ 0)) ∧
    (∀ i ∈ (compareFast.trace host a b).bytesB, i < roundUp4 b.mv_size) := by
  have hb := (traceLoop_bounds host a b b.mv_size a.mv_data b.mv_data 0).2.2.2
  have hl : ∀ off ∈ (compareFast.trace host a b).loadsB,
      off + 4 ≤ b.mv_size ∨ (off = 4 * (b.mv_size / 4) ∧ b.mv_size % 4 ≠ 0) := by
    intro off ho
    rcases hb off ho with h | ⟨h, hm⟩
    · left; omega
    · right; exact ⟨by omega, hm⟩
  refine ⟨hl, ?_⟩
  intro i hi
  simp only [Trace.bytesB, List.mem_flatMap] at hi
  obtain ⟨off, ho, hi⟩ := hi
  have hi3 : i ≤ off + 3 := by
    simp only [List.mem_cons, List.mem_singleton, List.not_mem_nil, or_false] at hi
    omega
  rcases hl off ho with h | ⟨h, hm⟩
  · have := le_roundUp4 b.mv_size
    omega
  · rw [roundUp4_eq _ hm]
    omega

/-- Claim C13 fails as stated. The tail step loads a whole word of `b`: with
one remaining byte `9B` and nothing readable behind it there is no masked
word, and `compare([12 34 56 78 9A], [12 34 56 78 9B])` has no result. On a
big-endian host the masked word of the bytes `01 02 03 04` with one remaining
byte is 4, not `01 00 00 00` read as a big-endian integer, and the same
comparison (three zero bytes behind the stored key) returns 1. -/
theorem tailWordB_masks_first_bytes_fails :
    (tailWordB Endian.little [0x9B] 1 = none ∧
      compareFast Endian.little (query [0x12, 0x34, 0x56, 0x78, 0x9A])
        (stored [0x12, 0x34, 0x56, 0x78, 0x9B] []) = none) ∧
    (tailWordB Endian.big [1, 2, 3, 4] 1 = some 4 ∧ be32 1 0 0 0 = 16777216 ∧
      compareFast Endian.big (query [0x12, 0x34, 0x56, 0x78, 0x9A])
        (stored [0x12, 0x34, 0x56, 0x78, 0x9B] [0, 0, 0]) = some 1) := by
  decide

/-- Claim C13, amended. On a little-endian host, in the tail step, for every
remaining count `r` in {1, 2, 3}, when the four bytes at `dataB` are readable,
the masked word `ntohl(*dataB & mask)` of `b` is the unsigned big-endian
32-bit integer formed from the next `r` bytes of `b` in stored order followed
by `4 - r` zero bytes, whatever the bytes behind them are; with three or more
bytes readable behind the stored key,
`compare([12 34 56 78 9A], [12 34 56 78 9B]) = -1` and
`compare([12 34 56 78 9A], [12 34 56 78 9A]) = 0`. -/
theorem tailWordB_masks_first_bytes :
    (∀ (y0 y1 y2 y3 : Byte) (rest : List Byte),
      tailWordB Endian.little (y0 :: y1 :: y2 :: y3 :: rest) 1 = some (be32 y0 0 0 0) ∧
      tailWordB Endian.little (y0 :: y1 :: y2 :: y3 :: rest) 2 = some (be32 y0 y1 0 0) ∧
      tailWordB Endian.little (y0 :: y1 :: y2 :: y3 :: rest) 3 = some (be32 y0 y1 y2 0)) ∧
    (∀ (j1 j2 j3 : Byte) (rest : List Byte),
      compareFast Endian.little (query [0x12, 0x34, 0x56, 0x78, 0x9A])
        (stored [0x12, 0x34, 0x56, 0x78, 0x9B] (j1 :: j2 :: j3 :: rest)) = some (-1)) ∧
    (∀ (j1 j2 j3 : Byte) (rest : List Byte),
      compareFast Endian.little (query [0x12, 0x34, 0x56, 0x78, 0x9A])
        (stored [0x12, 0x34, 0x56, 0x78, 0x9A] (j1 :: j2 :: j3 :: rest)) = some 0) := by
  refine ⟨fun y0 y1 y2 y3 rest => ⟨tailWordB_little_one y0 y1 y2 y3 rest,
    tailWordB_little_two y0 y1 y2 y3 rest, tailWordB_little_three y0 y1 y2 y3 rest⟩, ?_, ?_⟩
  · intro j1 j2 j3 rest
    have h := compareFast_tail_differs 5 1 [0x12, 0x34, 0x56, 0x78] [] rest 0x9A 0 0 0
      0x9B j1 j2 j3 (by decide) (by decide) (by decide)
    rw [if_neg (show ¬ 2 ≤ 1 by decide), if_neg (show ¬ 3 ≤ 1 by decide), if_neg (by decide),
      if_pos (by decide)] at h
    exact h
  · intro j1 j2 j3 rest
    have h := compareFast_tail_differs 5 1 [0x12, 0x34, 0x56, 0x78] [] rest 0x9A 0 0 0
      0x9A j1 j2 j3 (by decide) (by decide) (by decide)
    rw [if_neg (show ¬ 2 ≤ 1 by decide), if_neg (show ¬ 3 ≤ 1 by decide), if_neg (by decide),
      if_neg (by decide)] at h
    rw [show toInt (sizeSub 5 ([(0x12 : Byte), 0x34, 0x56, 0x78].length + 1)) = 0 by decide] at h
    exact h

/-- Claim C14 fails on the code. For the equal keys `01` and `01` (three zero
bytes behind the stored key) the little-endian host returns 0 and the
big-endian host returns 1: there `ntohl` is the identity and the constants
`0x000000ff`, `0x0000ffff`, `0x00ffffff` keep the last 1, 2 or 3 bytes of the
loaded word, the bytes behind the key, instead of its first bytes. -/
theorem compareFast_host_dependent :
    (compareFast Endian.little (query [1]) (stored [1] [0, 0, 0]) = some 0 ∧
      compareFast Endian.big (query [1]) (stored [1] [0, 0, 0]) = some 1) ∧
    (∀ (y0 y1 y2 y3 : Byte) (rest : List Byte),
      tailWordB Endian.big (y0 :: y1 :: y2 :: y3 :: rest) 1 = some (be32 0 0 0 y3) ∧
      tailWordB Endian.big (y0 :: y1 :: y2 :: y3 :: rest) 2 = some (be32 0 0 y2 y3) ∧
      tailWordB Endian.big (y0 :: y1 :: y2 :: y3 :: rest) 3 = some (be32 0 y1 y2 y3)) :=
  ⟨by decide, tailWordB_big⟩

/-- Claim C15. `compareFast` is a total function (the recursion is on
`remaining`, which drops by 4 at every turn), and on either host, for every
`a` and `b`, the recorded run returns what the comparator returns, makes at
most `len(b) / 4` word comparisons inside the loop and at most one masked
comparison in the tail step, the latter only when `len(b)` is not a multiple
of 4; the loads and the counts are the same whatever the declared length of
`a`. -/
theorem compareFast_comparisons_bounded (host : Endian) (a b : MDB_val) :
    (compareFast.trace host a b).result = compareFast host a b ∧
    (compareFast.trace host a b).loopCompares ≤ b.mv_size / 4 ∧
    (compareFast.trace host a b).tailCompares ≤ 1 ∧
    ((compareFast.trace host a b).tailCompares = 1 → b.mv_size % 4 ≠ 0) ∧
    (compareFast.trace host a b).loopCompares + (compareFast.trace host a b).tailCompares ≤
      (b.mv_size + 3) / 4 ∧
    ∀ (lenA : Nat),
      (compareFast.trace host { mv_size := lenA, mv_data := a.mv_data } b).loopCompares =
          (compareFast.trace host a b).loopCompares ∧
        (compareFast.trace host { mv_size := lenA, mv_data := a.mv_data } b).tailCompares =
          (compareFast.trace host a b).tailCompares := by
  obtain ⟨h1, h2, h3, _⟩ := traceLoop_bounds host a b b.mv_size a.mv_data b.mv_data 0
  refine ⟨trace_result host a b, h1, h2, h3, ?_, ?_⟩
  · have h1' : (compareFast.trace host a b).loopCompares ≤ b.mv_size / 4 := h1
    have h2' : (compareFast.trace host a b).tailCompares ≤ 1 := h2
    have h3' : (compareFast.trace host a b).tailCompares = 1 → b.mv_size % 4 ≠ 0 := h3
    by_cases ht : (compareFast.trace host a b).tailCompares = 1
    · have := h3' ht
      omega
    · omega
  · intro lenA
    obtain ⟨_, e2, e3⟩ := traceLoop_size_a host { mv_size := lenA, mv_data := a.mv_data } a b
      b.mv_size a.mv_data b.mv_data 0
    exact ⟨e2, e3⟩

/-- Claim C16. The zero padding of the query key is necessary: the key `01`
held in the buffer `01 05 00 00`, whose padding is not all zero, compared on a
little-endian host with the stored key `01 02` gives 1, while the byte-wise
reference comparison of `01` with `01 02` gives -1 (and so does the
comparator on the zero-padded buffer). -/
theorem padding_is_necessary :
    ∃ (key buf b junk : List Byte),
      buf.take key.length = key ∧ buf.length = roundUp4 key.length ∧
      buf.drop key.length ≠ List.replicate (padLen key.length) 0 ∧
      padLen b.length ≤ junk.length ∧
      ∃ r s, compareFast Endian.little { mv_size := key.length, mv_data := buf } (stored b junk) =
          some r ∧
        Int.sign r ≠ Int.sign (refCompare key b) ∧
        compareFast Endian.little (query key) (stored b junk) = some s ∧
        Int.sign s = Int.sign (refCompare key b) :=
  ⟨[1], [1, 5, 0, 0], [1, 2], [0, 0], by decide, by decide, by decide, by decide, 1, -1,
    by decide, by decide, by decide, by decide⟩

end OrderedBinary
